import Mathlib

/-!
Verification of `symbol_graph.py` against its specification.

The program is shallowly embedded over `List Char` (Python strings are
sequences of characters; all inputs of interest are ASCII).  Fallible
Python code (raised exceptions) is embedded with `Except String`, the
error string mirroring the exception message.  Loops that consume their
input are written with an explicit structural fuel argument so that the
definitions compute inside the kernel; every wrapper passes fuel that
provably suffices (each loop iteration consumes at least one character),
so the fuel-exhaustion branches are unreachable.
-/

deriving instance DecidableEq for Except

namespace SymbolGraph

/-- `takeWhile` never lengthens a list. -/
lemma length_takeWhile_le (p : Char → Bool) (l : List Char) :
    (l.takeWhile p).length ≤ l.length := by
  induction l with
  | nil => simp
  | cons c cs ih =>
      by_cases h : p c
      · simp only [List.takeWhile_cons, h, if_true, List.length_cons]
        omega
      · simp [List.takeWhile_cons, h]

/-- The exception message of a Python `IndexError` raised by indexing a
string out of range, as `demangle_rust` does on malformed input. -/
def indexErr : String := "string index out of range"

/-- Model of Python `str.isnumeric` on the ASCII identifiers produced by
the binary tools: exactly the decimal digits `0`-`9`. -/
def isnumeric (c : Char) : Bool := c.isDigit

/-- Fueled worker for `replaceAll`.  Fuel equal to the length of the
scanned list suffices: every step consumes at least one character. -/
def replaceAllF (pat rep : List Char) : Nat → List Char → List Char
  | _, [] => []
  | 0, l => l
  | fuel + 1, c :: rest =>
    if pat ≠ [] ∧ pat.isPrefixOf (c :: rest) then
      rep ++ replaceAllF pat rep fuel ((c :: rest).drop pat.length)
    else
      c :: replaceAllF pat rep fuel rest

/-- Model of Python `str.replace pat rep`: scan left to right, replace
each non-overlapping occurrence of `pat` and continue after the
replacement text.  All patterns used by `demangle_rust` are nonempty. -/
def replaceAll (pat rep l : List Char) : List Char :=
  replaceAllF pat rep l.length l

/-- Model of Python `int` applied to a string of ASCII decimal digits
(the only strings `demangle_rust` passes to it). -/
def decVal (l : List Char) : Nat :=
  l.foldl (fun a c => 10 * a + (c.toNat - 48)) 0

/-- The scheme marker `_ZN` stripped by `demangle_rust`. -/
def zn : List Char := ['_', 'Z', 'N']

/-- Fueled worker for `parseParts`; fuel equal to the length of the
remaining symbol suffices since every loop iteration consumes at least
one character. -/
def parsePartsF : Nat → List Char → List (List Char) → Except String (List (List Char))
  | _, [], _ => .error indexErr
  | 0, _ :: _, _ => .error indexErr
  | fuel + 1, c :: rest, acc =>
    if c = '_' then .ok (acc ++ [c :: rest])
    else if ¬ isnumeric c then .ok (acc ++ [c :: rest])
    else if rest.dropWhile isnumeric = [] then .error indexErr
    else
      let i := 1 + (rest.takeWhile isnumeric).length
      let n := decVal ((c :: rest).take i)
      let sym2 := (c :: rest).drop i
      parsePartsF fuel (sym2.drop n) (acc ++ [sym2.take n])

/-- The component-parsing loop of `demangle_rust` (`while True:` over the
remainder of the symbol, accumulating `parts`).  Each iteration either
takes the whole remainder verbatim as a final component (leading `_` or
non-digit), or reads a decimal length prefix and slices off that many
characters.  Indexing an empty remainder, or a digit run extending to the
end of the string, raises `IndexError` exactly as `sym[0]` / `sym[i]`
do in the Python code. -/
def parseParts (sym : List Char) (acc : List (List Char)) :
    Except String (List (List Char)) :=
  parsePartsF sym.length sym acc

/-- The punctuation substitutions applied by `demangle_rust` to the
joined name: `$u20$` ↦ space, then `$LT$` ↦ `<`, then `$GT$` ↦ `>`. -/
def applySubsts (j : List Char) : List Char :=
  replaceAll "$GT$".data ">".data
    (replaceAll "$LT$".data "<".data
      (replaceAll "$u20$".data " ".data j))

/-- Embedding of `demangle_rust`: strip the `_ZN` marker, run the
component loop, drop the last two components, join with `::` and apply
the punctuation substitutions; identifiers without the marker pass
through unchanged. -/
def demangle_rust (sym : List Char) : Except String (List Char) :=
  if zn.isPrefixOf sym then
    match parseParts (sym.drop 3) [] with
    | .error e => .error e
    | .ok parts =>
        .ok (applySubsts (List.intercalate "::".data (parts.dropLast.dropLast)))
  else .ok sym

example :
    demangle_rust "_ZN4core3fmt5Debug9debug_tup17h1234567890abcdefE".data
      = .ok "core::fmt::Debug::debug_tup".data := by decide

example : demangle_rust "main".data = .ok "main".data := by decide

example : demangle_rust "_ZN12ab".data = .error indexErr := by decide

example : demangle_rust "_ZN12".data = .error indexErr := by decide

example :
    demangle_rust "_ZN4core9$LT$A$GT$3fmt2h0E".data = .ok "core::<A>::fmt".data := by
  decide

/-! ### Lemmas about the component-parsing loop -/

/-- `dropWhile` skips a first block that wholly satisfies `p`. -/
lemma dropWhile_append_all (p : Char → Bool) (l₁ l₂ : List Char)
    (h : ∀ x ∈ l₁, p x) :
    (l₁ ++ l₂).dropWhile p = l₂.dropWhile p := by
  induction l₁ with
  | nil => rfl
  | cons c cs ih =>
      have hc : p c := h c (by simp)
      simp only [List.cons_append, List.dropWhile_cons, hc, if_true]
      exact ih fun x hx => h x (by simp [hx])

/-- `takeWhile` keeps a first block that wholly satisfies `p`. -/
lemma takeWhile_append_all (p : Char → Bool) (l₁ l₂ : List Char)
    (h : ∀ x ∈ l₁, p x) :
    (l₁ ++ l₂).takeWhile p = l₁ ++ l₂.takeWhile p := by
  induction l₁ with
  | nil => rfl
  | cons c cs ih =>
      have hc : p c := h c (by simp)
      simp only [List.cons_append, List.takeWhile_cons, hc, if_true]
      rw [ih fun x hx => h x (by simp [hx])]

/-- On an empty remainder the parsing loop raises `IndexError` whatever
fuel is left (this is the `sym[0]` access in the Python loop). -/
lemma parsePartsF_nil (f : Nat) (acc : List (List Char)) :
    parsePartsF f [] acc = .error indexErr := by
  cases f <;> rfl

/-- Unfolding of one iteration of the fuelled parsing loop. -/
lemma parsePartsF_cons (fuel : Nat) (c : Char) (rest : List Char)
    (acc : List (List Char)) :
    parsePartsF (fuel + 1) (c :: rest) acc =
      if c = '_' then .ok (acc ++ [c :: rest])
      else if ¬ isnumeric c then .ok (acc ++ [c :: rest])
      else if rest.dropWhile isnumeric = [] then .error indexErr
      else
        parsePartsF fuel
          (((c :: rest).drop (1 + (rest.takeWhile isnumeric).length)).drop
            (decVal ((c :: rest).take (1 + (rest.takeWhile isnumeric).length))))
          (acc ++
            [((c :: rest).drop (1 + (rest.takeWhile isnumeric).length)).take
              (decVal ((c :: rest).take (1 + (rest.takeWhile isnumeric).length)))]) :=
  rfl

/-- The result of the fuelled loop does not depend on the fuel, as long as
the fuel covers the length of the remaining symbol (each iteration
consumes at least one character). -/
lemma parsePartsF_irrel :
    ∀ (f g : Nat) (sym : List Char) (acc : List (List Char)),
      sym.length ≤ f → sym.length ≤ g →
      parsePartsF f sym acc = parsePartsF g sym acc := by
  intro f
  induction f with
  | zero =>
      intro g sym acc hf _
      have hs : sym = [] := List.length_eq_zero.mp (Nat.le_zero.mp hf)
      subst hs
      rw [parsePartsF_nil, parsePartsF_nil]
  | succ f ih =>
      intro g sym acc hf hg
      cases sym with
      | nil => rw [parsePartsF_nil, parsePartsF_nil]
      | cons c rest =>
          cases g with
          | zero => simp at hg
          | succ g' =>
              rw [parsePartsF_cons, parsePartsF_cons]
              by_cases h1 : c = '_'
              · simp [h1]
              · simp only [if_neg h1]
                by_cases h2 : isnumeric c
                · simp only [h2, not_true_eq_false, if_false]
                  by_cases h3 : rest.dropWhile isnumeric = []
                  · simp [h3]
                  · simp only [if_neg h3]
                    apply ih
                    all_goals
                      have ht := length_takeWhile_le isnumeric rest
                      simp only [List.length_cons] at hf hg
                      simp only [List.length_drop, List.length_cons]
                      omega
                · simp [h2]

/-- A remainder starting with `_` or a non-digit is taken verbatim as the
final component and the loop stops. -/
lemma parseParts_final (c : Char) (ts : List Char) (acc : List (List Char))
    (h : c = '_' ∨ ¬ isnumeric c) :
    parseParts (c :: ts) acc = .ok (acc ++ [c :: ts]) := by
  unfold parseParts
  rw [List.length_cons, parsePartsF_cons]
  rcases h with h | h
  · simp [h]
  · simp [h]

/-- A remainder that is all digits makes the inner digit scan run off the
end of the string: `IndexError`. -/
lemma parseParts_error_allDigits (d0 : Char) (ds : List Char)
    (acc : List (List Char)) (h0 : isnumeric d0) (hds : ∀ x ∈ ds, isnumeric x) :
    parseParts (d0 :: ds) acc = .error indexErr := by
  have h0' : d0 ≠ '_' := by
    intro he
    rw [he] at h0
    exact absurd h0 (by decide)
  have e : ds.dropWhile isnumeric = [] := by
    have := dropWhile_append_all isnumeric ds [] hds
    simpa using this
  unfold parseParts
  rw [List.length_cons, parsePartsF_cons]
  simp [h0', h0, e]

/-- Well-formed length-prefixed component: a nonempty decimal prefix `d`
announcing exactly the length of the body `c`, whose first character is
not a digit. -/
def wfComp (p : List Char × List Char) : Prop :=
  p.1 ≠ [] ∧ (∀ x ∈ p.1, isnumeric x) ∧ decVal p.1 = p.2.length ∧
    p.2 ≠ [] ∧ ∀ x ∈ p.2.take 1, ¬ isnumeric x

instance : DecidablePred wfComp := fun p => by
  unfold wfComp
  infer_instance

/-- The concatenated encoding of a list of length-prefixed components. -/
def encAll (ps : List (List Char × List Char)) : List Char :=
  (ps.map fun p => p.1 ++ p.2).flatten

/-- The loop consumes one well-formed length-prefixed component and
appends its body to the accumulator. -/
lemma parseParts_step (d c rest : List Char) (acc : List (List Char))
    (hwf : wfComp (d, c)) :
    parseParts (d ++ (c ++ rest)) acc = parseParts rest (acc ++ [c]) := by
  obtain ⟨hd, hdig, hlen, hc, hch⟩ := hwf
  rcases d with _ | ⟨d0, ds⟩
  · exact absurd rfl hd
  rcases c with _ | ⟨c0, cs⟩
  · exact absurd rfl hc
  have hd0 : isnumeric d0 := hdig d0 (by simp)
  have hds : ∀ x ∈ ds, isnumeric x := fun x hx => hdig x (by simp [hx])
  have hc0 : ¬ isnumeric c0 := hch c0 (by simp)
  have hd0ne : d0 ≠ '_' := by
    intro he
    rw [he] at hd0
    exact absurd hd0 (by decide)
  have hX : (d0 :: ds) ++ ((c0 :: cs) ++ rest) = d0 :: (ds ++ ((c0 :: cs) ++ rest)) := by
    simp
  have eDrop : (ds ++ ((c0 :: cs) ++ rest)).dropWhile isnumeric = c0 :: (cs ++ rest) := by
    rw [dropWhile_append_all _ _ _ hds]
    simp [List.dropWhile_cons, hc0]
  have eTake : (ds ++ ((c0 :: cs) ++ rest)).takeWhile isnumeric = ds := by
    rw [takeWhile_append_all _ _ _ hds]
    simp [List.takeWhile_cons, hc0]
  have eTakeLen : 1 + ((ds ++ ((c0 :: cs) ++ rest)).takeWhile isnumeric).length
      = (d0 :: ds).length := by
    rw [eTake]
    simp [Nat.add_comm]
  have eTakeD : (d0 :: (ds ++ ((c0 :: cs) ++ rest))).take (d0 :: ds).length
      = d0 :: ds := by
    have := List.take_left (d0 :: ds) ((c0 :: cs) ++ rest)
    simp only [List.cons_append] at this
    exact this
  have eDropD : (d0 :: (ds ++ ((c0 :: cs) ++ rest))).drop (d0 :: ds).length
      = (c0 :: cs) ++ rest := by
    have := List.drop_left (d0 :: ds) ((c0 :: cs) ++ rest)
    simp only [List.cons_append] at this
    exact this
  have eN : decVal (d0 :: ds) = (c0 :: cs).length := hlen
  have eTakeC : ((c0 :: cs) ++ rest).take (c0 :: cs).length = c0 :: cs :=
    List.take_left _ _
  have eDropC : ((c0 :: cs) ++ rest).drop (c0 :: cs).length = rest :=
    List.drop_left _ _
  rw [hX]
  unfold parseParts
  rw [List.length_cons, parsePartsF_cons]
  rw [if_neg hd0ne]
  rw [if_neg (by simp [hd0])]
  rw [if_neg (by rw [eDrop]; simp)]
  rw [eTakeLen, eTakeD, eDropD, eN, eTakeC, eDropC]
  apply parsePartsF_irrel
  · simp only [List.length_append, List.length_cons]
    omega
  · exact Nat.le_refl _

/-- The loop consumes any number of well-formed components, appending
their bodies in order, and continues on the remaining suffix. -/
lemma parseParts_encAll (ps : List (List Char × List Char)) :
    ∀ (suf : List Char) (acc : List (List Char)), (∀ p ∈ ps, wfComp p) →
      parseParts (encAll ps ++ suf) acc
        = parseParts suf (acc ++ ps.map Prod.snd) := by
  induction ps with
  | nil =>
      intro suf acc _
      simp [encAll]
  | cons p ps ih =>
      intro suf acc hps
      rcases p with ⟨d, c⟩
      have e : encAll ((d, c) :: ps) ++ suf = d ++ (c ++ (encAll ps ++ suf)) := by
        simp [encAll]
      rw [e, parseParts_step d c _ acc (hps _ (by simp)),
        ih suf _ fun p hp => hps p (by simp [hp])]
      simp

/-- `demangle_rust` on a marker-prefixed symbol runs the loop on the rest. -/
lemma demangle_rust_zn (X : List Char) :
    demangle_rust (zn ++ X) =
      match parseParts X [] with
      | .error e => .error e
      | .ok parts =>
          .ok (applySubsts (List.intercalate "::".data (parts.dropLast.dropLast))) := by
  have hpre : zn.isPrefixOf (zn ++ X) := by
    simp [List.isPrefixOf_iff_prefix]
  have hdrop : (zn ++ X).drop 3 = X := List.drop_left zn X
  unfold demangle_rust
  rw [if_pos hpre, hdrop]

/-! ### Claims about the decoder -/

/-- C9: an identifier that does not start with the `_ZN` marker is
returned unchanged by `demangle_rust`, so decoding such an identifier
twice yields the same unchanged string both times. -/
theorem demangle_rust_passthrough_idempotent (s : List Char)
    (h : ¬ zn.isPrefixOf s) :
    demangle_rust s = .ok s ∧ (demangle_rust s).bind demangle_rust = .ok s := by
  have h1 : demangle_rust s = .ok s := by
    unfold demangle_rust
    rw [if_neg h]
  refine ⟨h1, ?_⟩
  rw [h1]
  simpa [Except.bind] using h1

/-- Witness for `demangle_rust_passthrough_idempotent` at `"main"`. -/
theorem demangle_rust_passthrough_idempotent_witness :
    demangle_rust "main".data = .ok "main".data ∧
      (demangle_rust "main".data).bind demangle_rust = .ok "main".data :=
  demangle_rust_passthrough_idempotent "main".data (by decide)

/-- C6: on a well-formed compressed identifier — the `_ZN` marker, a run
of length-prefixed components, and a final verbatim terminator chunk —
`demangle_rust` parses the components greedily, drops the last two parsed
components, joins the remainder with `::` and applies the punctuation
substitutions; in particular `_ZN4core3fmt5Debug9debug_tup17h1234567890abcdefE`
decodes to `core::fmt::Debug::debug_tup`. -/
theorem demangle_rust_wellformed (ps : List (List Char × List Char))
    (t : List Char) (hps : ∀ p ∈ ps, wfComp p) (ht : t ≠ [])
    (ht1 : ∀ x ∈ t.take 1, x = '_' ∨ ¬ isnumeric x) :
    demangle_rust (zn ++ (encAll ps ++ t))
        = .ok (applySubsts (List.intercalate "::".data
            ((ps.map Prod.snd ++ [t]).dropLast.dropLast)))
      ∧ demangle_rust "_ZN4core3fmt5Debug9debug_tup17h1234567890abcdefE".data
        = .ok "core::fmt::Debug::debug_tup".data := by
  constructor
  · rw [demangle_rust_zn, parseParts_encAll ps t [] hps]
    rcases t with _ | ⟨t0, ts⟩
    · exact absurd rfl ht
    · rw [parseParts_final t0 ts _ (ht1 t0 (by simp))]
      simp
  · decide

/-- Witness for `demangle_rust_wellformed` on `_ZN4core3fmt2up2h1E`. -/
theorem demangle_rust_wellformed_witness :
    demangle_rust (zn ++ (encAll [("4".data, "core".data), ("3".data, "fmt".data),
          ("2".data, "up".data), ("2".data, "h1".data)] ++ "E".data))
        = .ok (applySubsts (List.intercalate "::".data
            (([("4".data, "core".data), ("3".data, "fmt".data), ("2".data, "up".data),
                ("2".data, "h1".data)].map Prod.snd ++ ["E".data]).dropLast.dropLast)))
      ∧ demangle_rust "_ZN4core3fmt5Debug9debug_tup17h1234567890abcdefE".data
        = .ok "core::fmt::Debug::debug_tup".data :=
  demangle_rust_wellformed _ _ (by decide) (by decide) (by decide)

/-- C1: a compressed identifier whose next length prefix either runs as a
digit sequence to the very end of the string, or announces more
characters than remain in the buffer, makes `demangle_rust` fail with the
decode error; it never returns a truncated string and never falls back to
the raw name. -/
theorem demangle_rust_malformed_fails (ps : List (List Char × List Char))
    (d rest : List Char) (hps : ∀ p ∈ ps, wfComp p)
    (hd : d ≠ []) (hdig : ∀ x ∈ d, isnumeric x)
    (hrest : rest = [] ∨
      ((∀ x ∈ rest.take 1, ¬ isnumeric x) ∧ rest.length < decVal d)) :
    demangle_rust (zn ++ (encAll ps ++ (d ++ rest))) = .error indexErr := by
  rw [demangle_rust_zn, parseParts_encAll ps _ [] hps]
  rcases d with _ | ⟨d0, ds⟩
  · exact absurd rfl hd
  have hd0 : isnumeric d0 := hdig d0 (by simp)
  have hds : ∀ x ∈ ds, isnumeric x := fun x hx => hdig x (by simp [hx])
  have hd0ne : d0 ≠ '_' := by
    intro he
    rw [he] at hd0
    exact absurd hd0 (by decide)
  rcases hrest with h | ⟨h1, h2⟩
  · subst h
    rw [List.append_nil, parseParts_error_allDigits d0 ds _ hd0 hds]
  · rcases rest with _ | ⟨r0, rs⟩
    · rw [List.append_nil, parseParts_error_allDigits d0 ds _ hd0 hds]
    · have hr0 : ¬ isnumeric r0 := h1 r0 (by simp)
      have hX : (d0 :: ds) ++ (r0 :: rs) = d0 :: (ds ++ (r0 :: rs)) := by simp
      have eDrop : (ds ++ (r0 :: rs)).dropWhile isnumeric = r0 :: rs := by
        rw [dropWhile_append_all _ _ _ hds]
        simp [List.dropWhile_cons, hr0]
      have eTake : (ds ++ (r0 :: rs)).takeWhile isnumeric = ds := by
        rw [takeWhile_append_all _ _ _ hds]
        simp [List.takeWhile_cons, hr0]
      have eTakeLen : 1 + ((ds ++ (r0 :: rs)).takeWhile isnumeric).length
          = (d0 :: ds).length := by
        rw [eTake]
        simp [Nat.add_comm]
      have eTakeD : (d0 :: (ds ++ (r0 :: rs))).take (d0 :: ds).length
          = d0 :: ds := by
        have := List.take_left (d0 :: ds) (r0 :: rs)
        simp only [List.cons_append] at this
        exact this
      have eDropD : (d0 :: (ds ++ (r0 :: rs))).drop (d0 :: ds).length
          = r0 :: rs := by
        have := List.drop_left (d0 :: ds) (r0 :: rs)
        simp only [List.cons_append] at this
        exact this
      have eNil : (r0 :: rs).drop (decVal (d0 :: ds)) = [] := by
        apply List.drop_eq_nil_of_le
        simpa using Nat.le_of_lt h2
      rw [hX]
      unfold parseParts
      rw [List.length_cons, parsePartsF_cons, if_neg hd0ne,
        if_neg (by simp [hd0]), if_neg (by rw [eDrop]; simp),
        eTakeLen, eTakeD, eDropD, eNil, parsePartsF_nil]

/-- Witness for `demangle_rust_malformed_fails` on `_ZN4core12ab`. -/
theorem demangle_rust_malformed_fails_witness :
    demangle_rust (zn ++ (encAll [("4".data, "core".data)] ++
        ("12".data ++ "ab".data))) = .error indexErr :=
  demangle_rust_malformed_fails [("4".data, "core".data)] "12".data "ab".data
    (by decide) (by decide) (by decide) (by decide)

/-! ### The disassembly parser (`parse_edges`) -/

/-- The regex character class `[\w]` on the ASCII output of objdump:
letters, digits and underscore. -/
def isWord (c : Char) : Bool := c.isAlphanum || c = '_'

/-- The character class `[0-9a-f]` of the function-start pattern. -/
def isHexLower (c : Char) : Bool := c.isDigit || ('a' ≤ c && c ≤ 'f')

/-- Model of `re.match` with pattern `[0-9a-f]+ <([\w]+)>:` returning the
captured group.  The greedy `+` runs cannot backtrack productively here
(a shorter run would put a class character where the following literal is
required), so prefix matching is: a maximal nonempty `[0-9a-f]` run, the
literal ` <`, a maximal nonempty `[\w]` run, and the literal `>:`;
anything may follow, since `re.match` only anchors at the start. -/
def matchFuncStart (l : List Char) : Option (List Char) :=
  if (l.takeWhile isHexLower).isEmpty then none
  else
    match l.dropWhile isHexLower with
    | ' ' :: '<' :: r1 =>
        let w := r1.takeWhile isWord
        if w.isEmpty then none
        else
          match r1.dropWhile isWord with
          | '>' :: ':' :: _ => some w
          | _ => none
    | _ => none

/-- Fueled worker for `findRefs`; fuel equal to the length of the scanned
list suffices since the scan position advances by at least one character
per step. -/
def findRefsF : Nat → List Char → List (List Char)
  | _, [] => []
  | 0, _ => []
  | fuel + 1, c :: rest =>
    if c = '<' then
      match rest.dropWhile isWord with
      | '>' :: r2 =>
          if (rest.takeWhile isWord).isEmpty then findRefsF fuel rest
          else rest.takeWhile isWord :: findRefsF fuel r2
      | _ => findRefsF fuel rest
    else findRefsF fuel rest

/-- Model of `re.findall` with pattern `<([\w]+)>`: left-to-right
non-overlapping matches; after a match the scan continues right after the
closing `>`, after a failed attempt it advances one character. -/
def findRefs (l : List Char) : List (List Char) :=
  findRefsF l.length l

example : findRefs "call <foo>".data = ["foo".data] := by decide

example : findRefs "  4a0: jmp 4b0 <a> <b_1>".data = ["a".data, "b_1".data] := by
  decide

example : findRefs "<a<b>".data = ["b".data] := by decide

example : matchFuncStart "00000000000012a0 <main>:".data = some "main".data := by
  decide

example : matchFuncStart "call <foo>".data = none := by decide

/-- The line loop of `parse_edges`: a function-start line replaces the
current symbol and yields nothing; any other line yields one
`(currentSymbol, reference)` pair per bracketed reference, in order.  The
current symbol starts out as Python `None`, so references seen before any
function-start line are emitted with `none` as caller. -/
def parse_edges_go : List (List Char) → Option (List Char) →
    List (Option (List Char) × List Char)
  | [], _ => []
  | l :: ls, sym =>
      match matchFuncStart l with
      | some w => parse_edges_go ls (some w)
      | none => (findRefs l).map (fun r => (sym, r)) ++ parse_edges_go ls sym

/-- Embedding of `parse_edges`: split the disassembly text into lines and
run the stateful line loop with no current symbol. -/
def parse_edges (asm : List Char) : List (Option (List Char) × List Char) :=
  parse_edges_go (asm.splitOn '\n') none

example :
    parse_edges "0000012a0 <main>:\n  jmp <foo>\n  call <bar>".data
      = [(some "main".data, "foo".data), (some "main".data, "bar".data)] := by
  decide

/-! ### Claims about the disassembly parser -/

/-- Counterexample to C3: a disassembly text with no function-start line
but containing a bracketed reference yields a nonempty edge sequence —
the reference is emitted with `none` (Python `None`) as its caller. -/
theorem parse_edges_before_start_counterexample :
    (("call <foo>".data.splitOn '\n').all fun l => (matchFuncStart l).isNone)
      ∧ parse_edges "call <foo>".data = [(none, "foo".data)]
      ∧ parse_edges "call <foo>".data ≠ [] := by
  refine ⟨by decide, by decide, by decide⟩

/-- On lines none of which match the function-start pattern, the line
loop emits every reference with the unchanged current symbol. -/
lemma parse_edges_go_all_none (ls : List (List Char))
    (h : ∀ l ∈ ls, matchFuncStart l = none) :
    parse_edges_go ls none = (ls.map findRefs).flatten.map (fun r => (none, r)) := by
  induction ls with
  | nil => rfl
  | cons l ls ih =>
      have hl : matchFuncStart l = none := h l (by simp)
      simp only [parse_edges_go, hl, List.map_cons, List.flatten_cons,
        List.map_append]
      rw [ih fun x hx => h x (by simp [hx])]

/-- C3 (amended): for disassembly text with no line matching the
function-start pattern, every reference-shaped substring is emitted as a
pair whose caller is `none`; the sequence is empty only when the text
contains no references at all. -/
theorem parse_edges_no_funcline (asm : List Char)
    (h : ∀ l ∈ asm.splitOn '\n', matchFuncStart l = none) :
    parse_edges asm
      = ((asm.splitOn '\n').map findRefs).flatten.map (fun r => (none, r)) :=
  parse_edges_go_all_none _ h

/-- Witness for `parse_edges_no_funcline`. -/
theorem parse_edges_no_funcline_witness :
    parse_edges "call <foo>".data
      = (("call <foo>".data.splitOn '\n').map findRefs).flatten.map
          (fun r => (none, r)) :=
  parse_edges_no_funcline "call <foo>".data (by decide)

/-- C10: a line matching the function-start pattern only updates the
current-symbol state and emits no pairs, even when it carries further
bracketed names after the colon; concretely, a two-line text whose first
line is a function-start line carrying an extra `<foo>` yields only the
second line's reference, attributed to the new current symbol. -/
theorem parse_edges_funcline_emits_nothing (line : List Char)
    (ls : List (List Char)) (sym : Option (List Char)) (w : List Char)
    (h : matchFuncStart line = some w) :
    parse_edges_go (line :: ls) sym = parse_edges_go ls (some w)
      ∧ parse_edges "4a0 <main>: jmp <foo>\ncall <bar>".data
        = [(some "main".data, "bar".data)] := by
  constructor
  · simp [parse_edges_go, h]
  · decide

/-- Witness for `parse_edges_funcline_emits_nothing`. -/
theorem parse_edges_funcline_emits_nothing_witness :
    parse_edges_go ["4a0 <main>: jmp <foo>".data] none
        = parse_edges_go [] (some "main".data)
      ∧ parse_edges "4a0 <main>: jmp <foo>\ncall <bar>".data
        = [(some "main".data, "bar".data)] :=
  parse_edges_funcline_emits_nothing "4a0 <main>: jmp <foo>".data [] none
    "main".data (by decide)

/-! ### The symbol-size extractor (`symbol_sizes`) -/

/-- Value of one hexadecimal digit (either case). -/
def hexDigitVal (c : Char) : Nat :=
  if c.isDigit then c.toNat - 48
  else if 'a' ≤ c then c.toNat - 87
  else c.toNat - 55

/-- The character class of hexadecimal digits accepted by Python
`int(_, 16)`. -/
def isHexDigit (c : Char) : Bool :=
  c.isDigit || ('a' ≤ c && c ≤ 'f') || ('A' ≤ c && c ≤ 'F')

/-- Digit loop of Python `int(_, 16)`: hexadecimal digits, optionally
separated by single underscores. -/
def hexLoop : List Char → Nat → Option Nat
  | [], acc => some acc
  | '_' :: c :: rest, acc =>
      if isHexDigit c then hexLoop rest (16 * acc + hexDigitVal c) else none
  | ['_'], _ => none
  | c :: rest, acc =>
      if isHexDigit c then hexLoop rest (16 * acc + hexDigitVal c) else none

/-- A nonempty underscore-separated hexadecimal digit string. -/
def hexCore (l : List Char) : Option Nat :=
  match l with
  | [] => none
  | c :: rest => if isHexDigit c then hexLoop rest (hexDigitVal c) else none

/-- After a `0x`/`0X` prefix Python also allows one leading underscore. -/
def hexAfterPrefix (l : List Char) : Option Nat :=
  match l with
  | '_' :: rest => hexCore rest
  | _ => hexCore l

/-- The unsigned part of a base-16 integer literal: an optional `0x`/`0X`
prefix followed by underscore-separated hexadecimal digits. -/
def pyIntCore (t : List Char) : Option Nat :=
  match t with
  | '0' :: 'x' :: rest => hexAfterPrefix rest
  | '0' :: 'X' :: rest => hexAfterPrefix rest
  | _ => hexCore t

/-- The exception message of the `ValueError` raised by Python
`int(_, 16)` on a string that is not a base-16 integer literal. -/
def valueErr : String := "invalid literal for int() with base 16"

/-- Model of Python `int(s, 16)`: strip surrounding whitespace, accept an
optional sign, then the unsigned literal; anything else raises
`ValueError`.  Note that a sign is accepted, so the result is an `Int`
and may be negative. -/
def pyIntHex (s : List Char) : Except String Int :=
  let t := ((s.dropWhile Char.isWhitespace).reverse.dropWhile
    Char.isWhitespace).reverse
  match t with
  | '-' :: t1 =>
      match pyIntCore t1 with
      | some n => .ok (-(n : Int))
      | none => .error valueErr
  | '+' :: t1 =>
      match pyIntCore t1 with
      | some n => .ok (n : Int)
      | none => .error valueErr
  | _ =>
      match pyIntCore t with
      | some n => .ok (n : Int)
      | none => .error valueErr

example : pyIntHex "0000000000000010".data = .ok 16 := by decide

example : pyIntHex "-10".data = .ok (-16) := by decide

example : pyIntHex "0x1f".data = .ok 31 := by decide

example : pyIntHex "zz".data = .error valueErr := by decide

example : pyIntHex "".data = .error valueErr := by decide

/-- Python dict assignment `d[k] = v`: overwrite the value at an existing
key in place, otherwise append the new entry. -/
def setKey {β : Type} (m : List (List Char × β)) (k : List Char) (v : β) :
    List (List Char × β) :=
  match m with
  | [] => [(k, v)]
  | (k', v') :: rest =>
      if k' = k then (k', v) :: rest else (k', v') :: setKey rest k v

/-- The line loop of `symbol_sizes`: split each line on single spaces;
a line with exactly four fields contributes `field3 ↦ int(field1, 16)`,
any other line is skipped.  A four-field line whose size field is not a
valid hexadecimal literal raises `ValueError` (propagated). -/
def symbol_sizes_go : List (List Char) → List (List Char × Int) →
    Except String (List (List Char × Int))
  | [], sizes => .ok sizes
  | l :: ls, sizes =>
      let parts := l.splitOn ' '
      if parts.length = 4 then
        match pyIntHex (parts.getD 1 []) with
        | .error e => .error e
        | .ok v => symbol_sizes_go ls (setKey sizes (parts.getD 3 []) v)
      else symbol_sizes_go ls sizes

/-- Embedding of `symbol_sizes` as a function of the size-table text
produced by the external `nm` tool. -/
def symbol_sizes (out : List Char) : Except String (List (List Char × Int)) :=
  symbol_sizes_go (out.splitOn '\n') []

example :
    symbol_sizes "0000000000001020 0000000000000010 T my_symbol".data
      = .ok [("my_symbol".data, 16)] := by decide

/-! ### Claims about the size extractor -/

/-- Counterexample to C4: a four-field line whose size field is not a
valid hexadecimal literal makes the extractor raise `ValueError` instead
of producing a mapping, and a negative size field is accepted, so the
size is not parsed as an unsigned integer. -/
theorem symbol_sizes_counterexample :
    symbol_sizes "a zz b c".data = .error valueErr
      ∧ symbol_sizes "x -10 T foo".data = .ok [("foo".data, -16)] := by
  refine ⟨by decide, by decide⟩

/-- Lines that do not split into exactly four fields never contribute and
never cause an error: the loop treats them as absent. -/
lemma symbol_sizes_go_skip (l : List Char) (ls : List (List Char))
    (sizes : List (List Char × Int)) (h : (l.splitOn ' ').length ≠ 4) :
    symbol_sizes_go (l :: ls) sizes = symbol_sizes_go ls sizes := by
  simp only [symbol_sizes_go, if_neg h]

/-- The extractor succeeds exactly when every four-field line has a valid
hexadecimal size field. -/
lemma symbol_sizes_go_isOk_iff (ls : List (List Char)) :
    ∀ sizes, (symbol_sizes_go ls sizes).isOk
      ↔ ∀ l ∈ ls, (l.splitOn ' ').length = 4 →
          (pyIntHex ((l.splitOn ' ').getD 1 [])).isOk := by
  induction ls with
  | nil => intro sizes; simp [symbol_sizes_go, Except.isOk, Except.toBool]
  | cons l ls ih =>
      intro sizes
      simp only [symbol_sizes_go]
      by_cases h4 : (l.splitOn ' ').length = 4
      · rw [if_pos h4]
        cases hv : pyIntHex ((l.splitOn ' ').getD 1 []) with
        | error e =>
            simp only [List.mem_cons]
            constructor
            · intro hok
              exact absurd hok (by simp [Except.isOk, Except.toBool])
            · intro hall
              have := hall l (Or.inl rfl) h4
              rw [hv] at this
              exact absurd this (by simp [Except.isOk, Except.toBool])
        | ok v =>
            rw [ih]
            constructor
            · intro hall x hx h4x
              rcases List.mem_cons.mp hx with he | hm
              · subst he
                rw [hv]
                simp [Except.isOk, Except.toBool]
              · exact hall x hm h4x
            · intro hall x hx h4x
              exact hall x (List.mem_cons_of_mem _ hx) h4x
      · rw [if_neg h4, ih]
        constructor
        · intro hall x hx h4x
          rcases List.mem_cons.mp hx with he | hm
          · subst he
            exact absurd h4x h4
          · exact hall x hm h4x
        · intro hall x hx h4x
          exact hall x (List.mem_cons_of_mem _ hx) h4x

/-- C4 (amended): the extractor maps symbol to size for the lines that
split into exactly four fields, parsing the size field as a base-16
integer literal (sign accepted, so possibly negative); lines not
splitting into four fields are silently skipped and never cause an error;
a four-field line whose size field is not a valid hexadecimal literal
raises a `ValueError` for the whole extraction; later duplicate lines for
the same symbol overwrite earlier ones; the line
`0000000000001020 0000000000000010 T my_symbol` yields `my_symbol ↦ 16`. -/
theorem symbol_sizes_spec (l : List Char) (ls : List (List Char))
    (sizes : List (List Char × Int)) (out : List Char)
    (h : (l.splitOn ' ').length ≠ 4) :
    symbol_sizes_go (l :: ls) sizes = symbol_sizes_go ls sizes
      ∧ ((symbol_sizes out).isOk
          ↔ ∀ x ∈ out.splitOn '\n', (x.splitOn ' ').length = 4 →
              (pyIntHex ((x.splitOn ' ').getD 1 [])).isOk)
      ∧ symbol_sizes "s 10 T dup\ns 20 T dup".data = .ok [("dup".data, 32)]
      ∧ symbol_sizes "0000000000001020 0000000000000010 T my_symbol".data
          = .ok [("my_symbol".data, 16)] :=
  ⟨symbol_sizes_go_skip l ls sizes h, symbol_sizes_go_isOk_iff _ [],
    by decide, by decide⟩

/-- Witness for `symbol_sizes_spec`. -/
theorem symbol_sizes_spec_witness :
    symbol_sizes_go ["not four".data] [] = symbol_sizes_go [] []
      ∧ ((symbol_sizes "a b c d\ne".data).isOk
          ↔ ∀ x ∈ "a b c d\ne".data.splitOn '\n', (x.splitOn ' ').length = 4 →
              (pyIntHex ((x.splitOn ' ').getD 1 [])).isOk)
      ∧ symbol_sizes "s 10 T dup\ns 20 T dup".data = .ok [("dup".data, 32)]
      ∧ symbol_sizes "0000000000001020 0000000000000010 T my_symbol".data
          = .ok [("my_symbol".data, 16)] :=
  symbol_sizes_spec "not four".data [] [] "a b c d\ne".data (by decide)

/-! ### The graph builder (`to_digraph`) and the dot printer (`to_dot`) -/

/-- Embedding of `encode_symbol`: escape embedded double quotes. -/
def encode_symbol (sym : List Char) : List Char :=
  replaceAll ['"'] ['\\', '"'] sym

/-- The `networkx.DiGraph` state that `to_digraph` builds: nodes and
edges in insertion order, plus the per-node `size` attribute. -/
structure DiGraph where
  nodes : List (List Char)
  edges : List (List Char × List Char)
  sizes : List (List Char × Int)
deriving DecidableEq

/-- Empty directed graph. -/
def DiGraph.empty : DiGraph := ⟨[], [], []⟩

/-- Add a node if absent (dict-backed node set: first insertion fixes the
position, re-insertion is a no-op). -/
def addNode (ns : List (List Char)) (x : List Char) : List (List Char) :=
  if x ∈ ns then ns else ns ++ [x]

/-- `DiGraph.add_edge`: insert both endpoints as nodes if absent (source
first), then the edge unless an edge with the same ordered pair exists. -/
def addEdge (g : DiGraph) (s d : List Char) : DiGraph :=
  { g with
    nodes := addNode (addNode g.nodes s) d
    edges := if (s, d) ∈ g.edges then g.edges else g.edges ++ [(s, d)] }

/-- `gr.nodes[sym]['size'] = size`, guarded by `sym in gr.nodes`. -/
def setSizeIfNode (g : DiGraph) (sym : List Char) (v : Int) : DiGraph :=
  if sym ∈ g.nodes then { g with sizes := setKey g.sizes sym v } else g

/-- Embedding of `to_digraph`, parameterised (like the Python function)
by the raw edge stream the disassembly parser produced, the raw size
mapping and the demangler. -/
def to_digraph (es : List (List Char × List Char))
    (ss : List (List Char × Int)) (dm : List Char → List Char) : DiGraph :=
  let g := es.foldl
    (fun g e => addEdge g (encode_symbol (dm e.1)) (encode_symbol (dm e.2)))
    DiGraph.empty
  ss.foldl (fun g p => setSizeIfNode g (encode_symbol (dm p.1)) p.2) g

/-- One printed edge line `  "src" -> "dst";`. -/
def edgeLine (s d : List Char) : List Char :=
  "  \"".data ++ s ++ "\" -> \"".data ++ d ++ "\";".data

/-- One printed node annotation line
`  "sym" [size=N label="sym\nN bytes"];` (the `\n` is literal). -/
def sizeLine (sym : List Char) (v : Int) : List Char :=
  "  \"".data ++ sym ++ "\" [size=".data ++ (toString v).data
    ++ " label=\"".data ++ sym ++ "\\n".data ++ (toString v).data
    ++ " bytes\"];".data

/-- Embedding of `to_dot` as the list of lines it prints: the opening
block delimiter, one line per raw edge from the parser (in stream order),
one annotation line per size entry, and the closing delimiter. -/
def to_dot (es : List (List Char × List Char))
    (ss : List (List Char × Int)) (dm : List Char → List Char) :
    List (List Char) :=
  ["digraph \x7b".data]
    ++ es.map (fun e =>
        edgeLine (encode_symbol (dm e.1)) (encode_symbol (dm e.2)))
    ++ ss.map (fun p => sizeLine (encode_symbol (dm p.1)) p.2)
    ++ ["\x7d".data]

example :
    to_digraph [("A".data, "B".data), ("A".data, "B".data),
        ("B".data, "C".data)] [] id
      = ⟨["A".data, "B".data, "C".data],
         [("A".data, "B".data), ("B".data, "C".data)], []⟩ := by decide

/-! ### Claims about the builder and printer -/

/-- Counterexample to C5: on the raw stream `[(A,B), (A,B), (B,C)]` the
built graph has exactly the two distinct edges, but the printed
description contains the `"A" -> "B";` line twice — one line per raw
occurrence, not one per distinct ordered pair of the graph. -/
theorem to_dot_duplicate_line_counterexample :
    (to_digraph [("A".data, "B".data), ("A".data, "B".data),
        ("B".data, "C".data)] [] id).edges
      = [("A".data, "B".data), ("B".data, "C".data)]
      ∧ (to_dot [("A".data, "B".data), ("A".data, "B".data),
          ("B".data, "C".data)] [] id).count (edgeLine "A".data "B".data)
        = 2 := by
  refine ⟨by decide, by decide⟩

/-- `addEdge` keeps the edge list duplicate-free. -/
lemma addEdge_edges_nodup (g : DiGraph) (s d : List Char)
    (h : g.edges.Nodup) : (addEdge g s d).edges.Nodup := by
  unfold addEdge
  by_cases hm : (s, d) ∈ g.edges
  · simpa [hm] using h
  · simp only [hm, if_false]
    rw [List.nodup_append]
    exact ⟨h, List.nodup_singleton _, by simpa using hm⟩

/-- The edge-inserting fold keeps the edge list duplicate-free. -/
lemma foldl_addEdge_nodup (dm : List Char → List Char)
    (es : List (List Char × List Char)) :
    ∀ g : DiGraph, g.edges.Nodup →
      (es.foldl (fun g e =>
        addEdge g (encode_symbol (dm e.1)) (encode_symbol (dm e.2))) g).edges.Nodup := by
  induction es with
  | nil => intro g h; exact h
  | cons e es ih =>
      intro g h
      exact ih _ (addEdge_edges_nodup _ _ _ h)

/-- The size-setting fold never touches nodes or edges. -/
lemma foldl_setSize_nodes_edges (dm : List Char → List Char)
    (ss : List (List Char × Int)) :
    ∀ g : DiGraph,
      (ss.foldl (fun g p => setSizeIfNode g (encode_symbol (dm p.1)) p.2) g).nodes
          = g.nodes
        ∧ (ss.foldl (fun g p => setSizeIfNode g (encode_symbol (dm p.1)) p.2) g).edges
          = g.edges := by
  induction ss with
  | nil => intro g; exact ⟨rfl, rfl⟩
  | cons p ps ih =>
      intro g
      have hstep : (setSizeIfNode g (encode_symbol (dm p.1)) p.2).nodes = g.nodes
          ∧ (setSizeIfNode g (encode_symbol (dm p.1)) p.2).edges = g.edges := by
        unfold setSizeIfNode
        by_cases hm : encode_symbol (dm p.1) ∈ g.nodes <;> simp [hm]
      rcases ih (setSizeIfNode g (encode_symbol (dm p.1)) p.2) with ⟨h1, h2⟩
      exact ⟨by rw [List.foldl_cons, h1, hstep.1],
             by rw [List.foldl_cons, h2, hstep.2]⟩

/-- C5 (amended): the built graph never contains parallel edges — at most
one edge per ordered node pair (on `[(A,B),(A,B),(B,C)]` exactly the two
distinct edges A→B and B→C) — while the printed description contains one
edge line per raw edge occurrence (plus one annotation line per size
entry and the two delimiters), so a repeated raw reference is printed as
a repeated line. -/
theorem to_digraph_dedup_to_dot_per_occurrence :
    (∀ es ss dm, (to_digraph es ss dm).edges.Nodup)
      ∧ (∀ es ss dm, (to_dot es ss dm).length = es.length + ss.length + 2)
      ∧ (to_digraph [("A".data, "B".data), ("A".data, "B".data),
          ("B".data, "C".data)] [] id).edges
        = [("A".data, "B".data), ("B".data, "C".data)]
      ∧ (to_dot [("A".data, "B".data), ("A".data, "B".data),
          ("B".data, "C".data)] [] id).count (edgeLine "A".data "B".data)
        = 2 := by
  refine ⟨?_, ?_, by decide, by decide⟩
  · intro es ss dm
    unfold to_digraph
    rcases foldl_setSize_nodes_edges dm ss
      (es.foldl (fun g e =>
        addEdge g (encode_symbol (dm e.1)) (encode_symbol (dm e.2)))
        DiGraph.empty) with ⟨_, h2⟩
    rw [h2]
    exact foldl_addEdge_nodup dm es DiGraph.empty List.nodup_nil
  · intro es ss dm
    unfold to_dot
    simp only [List.length_append, List.length_map, List.length_cons,
      List.length_nil]
    omega

/-- Membership in the node list is preserved by `addNode`. -/
lemma addNode_mono {ns : List (List Char)} {y : List Char} (x : List Char)
    (h : y ∈ ns) : y ∈ addNode ns x := by
  unfold addNode
  by_cases hm : x ∈ ns <;> simp [hm, h]

/-- `addNode` puts its argument in the node list. -/
lemma addNode_self (ns : List (List Char)) (x : List Char) :
    x ∈ addNode ns x := by
  unfold addNode
  by_cases hm : x ∈ ns <;> simp [hm]

/-- `addEdge` only grows the node list. -/
lemma addEdge_nodes_mono {g : DiGraph} {y : List Char} (s d : List Char)
    (h : y ∈ g.nodes) : y ∈ (addEdge g s d).nodes :=
  addNode_mono _ (addNode_mono _ h)

/-- Nodes survive the edge-inserting fold. -/
lemma foldl_addEdge_nodes_mono (dm : List Char → List Char)
    (es : List (List Char × List Char)) :
    ∀ (g : DiGraph) (y : List Char), y ∈ g.nodes →
      y ∈ (es.foldl (fun g e =>
        addEdge g (encode_symbol (dm e.1)) (encode_symbol (dm e.2))) g).nodes := by
  induction es with
  | nil => intro g y h; exact h
  | cons e es ih =>
      intro g y h
      exact ih _ y (addEdge_nodes_mono _ _ h)

/-- Every decoded endpoint of every raw edge ends up in the node list of
the edge-inserting fold. -/
lemma foldl_addEdge_endpoints (dm : List Char → List Char)
    (es : List (List Char × List Char)) :
    ∀ (g : DiGraph) (e : List Char × List Char), e ∈ es →
      encode_symbol (dm e.1) ∈ (es.foldl (fun g e =>
          addEdge g (encode_symbol (dm e.1)) (encode_symbol (dm e.2))) g).nodes
        ∧ encode_symbol (dm e.2) ∈ (es.foldl (fun g e =>
          addEdge g (encode_symbol (dm e.1)) (encode_symbol (dm e.2))) g).nodes := by
  induction es with
  | nil => intro g e h; exact absurd h (by simp)
  | cons e0 es ih =>
      intro g e h
      rcases List.mem_cons.mp h with he | hm
      · subst he
        constructor
        · refine foldl_addEdge_nodes_mono dm es _ _ ?_
          exact addNode_mono _ (addNode_self _ _)
        · refine foldl_addEdge_nodes_mono dm es _ _ ?_
          exact addNode_self _ _
      · exact ih _ e hm

/-- C8: every symbol appearing as either endpoint of any raw edge is
present (decoded and quote-escaped) in the final node set of the built
graph, whether or not it has a size entry; and the size entries add no
nodes — the node set equals that of the graph built with no sizes. -/
theorem to_digraph_nodes_invariant (es : List (List Char × List Char))
    (ss : List (List Char × Int)) (dm : List Char → List Char)
    (e : List Char × List Char) (he : e ∈ es) :
    encode_symbol (dm e.1) ∈ (to_digraph es ss dm).nodes
      ∧ encode_symbol (dm e.2) ∈ (to_digraph es ss dm).nodes
      ∧ (to_digraph es ss dm).nodes = (to_digraph es [] dm).nodes := by
  have hph1 := foldl_addEdge_endpoints dm es DiGraph.empty e he
  have hn := (foldl_setSize_nodes_edges dm ss
    (es.foldl (fun g e =>
      addEdge g (encode_symbol (dm e.1)) (encode_symbol (dm e.2)))
      DiGraph.empty)).1
  unfold to_digraph
  refine ⟨by rw [hn]; exact hph1.1, by rw [hn]; exact hph1.2, by rw [hn]; rfl⟩

/-- Witness for `to_digraph_nodes_invariant`. -/
theorem to_digraph_nodes_invariant_witness :
    encode_symbol (id "A".data)
        ∈ (to_digraph [("A".data, "B".data)] [("Z".data, 7)] id).nodes
      ∧ encode_symbol (id "B".data)
        ∈ (to_digraph [("A".data, "B".data)] [("Z".data, 7)] id).nodes
      ∧ (to_digraph [("A".data, "B".data)] [("Z".data, 7)] id).nodes
        = (to_digraph [("A".data, "B".data)] [] id).nodes :=
  to_digraph_nodes_invariant [("A".data, "B".data)] [("Z".data, 7)] id
    ("A".data, "B".data) (by decide)

/-! ### The dominance analyzer

`dominator_tree` delegates to `networkx.algorithms.dominance.immediate_dominators`,
the Cooper–Harvey–Kennedy iterative algorithm over a depth-first postorder.
That algorithm is embedded here faithfully: `idom` starts as
`{start: start}`, the processing order is the reversed postorder with the
start popped off the end, and each node is repeatedly re-assigned the
intersection (nearest common dominator-candidate by postorder number) of
its predecessors that already have an entry, until a pass changes
nothing. -/

/-- Successors of `u` in adjacency (edge-insertion) order, as
`networkx` iterates `G[u]`. -/
def succs (g : DiGraph) (u : List Char) : List (List Char) :=
  (g.edges.filter (fun e => decide (e.1 = u))).map Prod.snd

/-- Predecessors of `u` in edge-insertion order, as `networkx` iterates
`G.pred[u]`. -/
def preds (g : DiGraph) (u : List Char) : List (List Char) :=
  (g.edges.filter (fun e => decide (e.2 = u))).map Prod.fst

/-- Depth-first search from one node: skip if visited, otherwise mark and
recurse into the successors in adjacency order, then emit the node
(postorder).  Fuel bounds only the recursion depth; every level adds a
node to `visited` before descending, so any fuel exceeding the number of
nodes ever visited suffices.  Returns the grown visited list and the
postorder of the newly visited nodes. -/
def dfsN (g : DiGraph) : Nat → List (List Char) → List Char →
    List (List Char) × List (List Char)
  | 0, vis, _ => (vis, [])
  | fuel + 1, vis, u =>
    if u ∈ vis then (vis, [])
    else
      let r := (succs g u).foldl
        (fun acc w =>
          let s := dfsN g fuel acc.1 w
          (s.1, acc.2 ++ s.2))
        (u :: vis, ([] : List (List Char)))
      (r.1, r.2 ++ [u])

/-- The sibling fold inside `dfsN`, as a named function for reasoning. -/
def dfsL (g : DiGraph) (fuel : Nat) (vis : List (List Char))
    (ws : List (List Char)) : List (List Char) × List (List Char) :=
  ws.foldl (fun acc w => let s := dfsN g fuel acc.1 w; (s.1, acc.2 ++ s.2))
    (vis, ([] : List (List Char)))

/-- Fuel for the depth-first search: more than the number of nodes that
can ever be visited (the start node plus every edge target). -/
def dfsFuel (g : DiGraph) : Nat := 2 + g.nodes.length + g.edges.length

/-- Model of `networkx.dfs_postorder_nodes(G, start)`. -/
def dfsPost (g : DiGraph) (start : List Char) : List (List Char) :=
  (dfsN g (dfsFuel g) [] start).2

/-- The `intersect` helper of `immediate_dominators`, one climbing step
at a time: the node with the smaller postorder number is replaced by its
current `idom` entry until the two meet.  Fuel bounds the number of
climbing steps (each climb strictly increases a postorder number, so
twice the postorder length suffices); a missing dictionary entry, or two
distinct nodes with equal `dfn` (on which Python would loop forever), is
`none` — both are unreachable in actual runs. -/
def intersectF (dfn : List (List Char × Nat))
    (idom : List (List Char × List Char)) :
    Nat → List Char → List Char → Option (List Char)
  | 0, _, _ => none
  | fuel + 1, u, v =>
    if u = v then some u
    else
      match List.lookup u dfn, List.lookup v dfn with
      | some du, some dv =>
          if du < dv then
            match List.lookup u idom with
            | some u2 => intersectF dfn idom fuel u2 v
            | none => none
          else if dv < du then
            match List.lookup v idom with
            | some v2 => intersectF dfn idom fuel u v2
            | none => none
          else none
      | _, _ => none

/-- `functools.reduce(intersect, candidates)`: `none` on an empty
candidate list (Python raises `TypeError` there). -/
def reduceIntersect (dfn : List (List Char × Nat))
    (idom : List (List Char × List Char)) (ifuel : Nat) :
    List (List Char) → Option (List Char)
  | [] => none
  | p :: ps => ps.foldlM (fun a v => intersectF dfn idom ifuel a v) p

/-- One pass of the `for u in order` loop: recompute each node's
candidate immediate dominator from its predecessors that already have an
entry, record whether anything changed. -/
def chkPass (g : DiGraph) (dfn : List (List Char × Nat)) (ifuel : Nat) :
    List (List Char) → List (List Char × List Char) → Bool →
    Option (List (List Char × List Char) × Bool)
  | [], idom, changed => some (idom, changed)
  | u :: us, idom, changed =>
      match reduceIntersect dfn idom ifuel
        ((preds g u).filter (fun v => (List.lookup v idom).isSome)) with
      | none => none
      | some newIdom =>
          match List.lookup u idom with
          | some old =>
              if old = newIdom then chkPass g dfn ifuel us idom changed
              else chkPass g dfn ifuel us (setKey idom u newIdom) true
          | none => chkPass g dfn ifuel us (setKey idom u newIdom) true

/-- The `while changed` loop: run passes until one changes nothing.  The
fuel bounds the number of passes; the algorithm provably converges, and
the fuel passed by `immediate_dominators` exceeds the classical
convergence bound, so the exhaustion branch (which returns the current
map) is never taken in an actual run. -/
def chkLoop (g : DiGraph) (dfn : List (List Char × Nat)) (ifuel : Nat)
    (order : List (List Char)) :
    Nat → List (List Char × List Char) →
    Option (List (List Char × List Char))
  | 0, idom => some idom
  | f + 1, idom =>
      match chkPass g dfn ifuel order idom false with
      | none => none
      | some (idom2, changed) =>
          if changed then chkLoop g dfn ifuel order f idom2 else some idom2

/-- The exception message of the `networkx` error raised when the
requested root is not a node of the graph. -/
def unknownRootErr : String := "start is not in G"

/-- Model of `networkx.algorithms.dominance.immediate_dominators`:
reject an absent root, compute the depth-first postorder, number the
nodes by it, process the reversed postorder without the start, and
iterate to the Cooper–Harvey–Kennedy fixpoint.  ``.error unknownRootErr``
is the explicit root check; any other internal failure (empty `reduce`,
missing dictionary entry, a non-terminating `intersect`) is
`.error "internal"` — shown elsewhere never to occur. -/
def immediate_dominators (g : DiGraph) (start : List Char) :
    Except String (List (List Char × List Char)) :=
  if start ∈ g.nodes then
    match chkLoop g ((dfsPost g start).enum.map (fun p => (p.2, p.1)))
      (2 * (dfsPost g start).length + 2) ((dfsPost g start).dropLast.reverse)
      (g.nodes.length + g.edges.length + 3) [(start, start)] with
    | some idom => .ok idom
    | none => .error "internal"
  else .error unknownRootErr

/-- Embedding of `dominator_tree`: build a fresh graph with one edge
`(node, its immediate dominator)` per mapping entry — including the
`(root, root)` entry, which becomes a self-loop. -/
def dominator_tree (g : DiGraph) (n0 : List Char) : Except String DiGraph :=
  match immediate_dominators g n0 with
  | .error e => .error e
  | .ok doms => .ok (doms.foldl (fun tr p => addEdge tr p.1 p.2) DiGraph.empty)

/-- The dominator-tree example graph of the spec: edges A→B, A→C, B→D,
C→D. -/
def exGraph : DiGraph :=
  to_digraph [("A".data, "B".data), ("A".data, "C".data),
    ("B".data, "D".data), ("C".data, "D".data)] [] id

example : dfsPost exGraph "A".data
    = ["D".data, "B".data, "C".data, "A".data] := by decide

example :
    immediate_dominators exGraph "A".data
      = .ok [("A".data, "A".data), ("C".data, "A".data),
          ("B".data, "A".data), ("D".data, "A".data)] := by decide

example : immediate_dominators exGraph "Z".data = .error unknownRootErr := by
  decide

/-- The entry of `u` in the computed immediate-dominator mapping
(`none` if the analysis failed or the node has no entry). -/
def idomLookup (g : DiGraph) (root u : List Char) : Option (List Char) :=
  match immediate_dominators g root with
  | .ok m => List.lookup u m
  | .error _ => none

/-- The edge list of the built dominator tree (empty if the analysis
failed). -/
def domTreeEdges (g : DiGraph) (root : List Char) :
    List (List Char × List Char) :=
  match dominator_tree g root with
  | .ok tr => tr.edges
  | .error _ => []

/-- Counterexample to C2: on the spec's own example graph the computed
mapping is `{A:A, B:A, C:A, D:A}` — the root is in the domain, mapped to
itself, so the mapping is not `{B:A, C:A, D:A}` and the tree built from
it carries the self-loop edge A→A, a cycle at the root. -/
theorem immediate_dominators_root_in_domain_counterexample :
    immediate_dominators exGraph "A".data
        = .ok [("A".data, "A".data), ("C".data, "A".data),
            ("B".data, "A".data), ("D".data, "A".data)]
      ∧ idomLookup exGraph "A".data "A".data = some "A".data
      ∧ ("A".data, "A".data) ∈ domTreeEdges exGraph "A".data := by
  refine ⟨by decide, by decide, by decide⟩

/-! ### Reachability and soundness of the depth-first search -/

/-- `Reaches g u v`: `v` is reachable from `u` along directed edges. -/
inductive Reaches (g : DiGraph) : List Char → List Char → Prop
  | refl (u : List Char) : Reaches g u u
  | step {u v w : List Char} : Reaches g u v → w ∈ succs g v → Reaches g u w

/-- A reachability chain can be extended at the front by one edge. -/
lemma Reaches.head {g : DiGraph} {u w x : List Char}
    (hw : w ∈ succs g u) (h : Reaches g w x) : Reaches g u x := by
  induction h with
  | refl => exact Reaches.step (Reaches.refl u) hw
  | step h hs ih => exact Reaches.step ih hs

/-- Unfolding of `dfsN` on an unvisited node. -/
lemma dfsN_not_mem (g : DiGraph) (fuel : Nat) (vis : List (List Char))
    (u : List Char) (h : u ∉ vis) :
    dfsN g (fuel + 1) vis u
      = ((dfsL g fuel (u :: vis) (succs g u)).1,
         (dfsL g fuel (u :: vis) (succs g u)).2 ++ [u]) := by
  simp [dfsN, dfsL, h]

/-- Unfolding of `dfsN` on a visited node. -/
lemma dfsN_mem (g : DiGraph) (fuel : Nat) (vis : List (List Char))
    (u : List Char) (h : u ∈ vis) :
    dfsN g (fuel + 1) vis u = (vis, []) := by
  simp [dfsN, h]

/-- Shifting the postorder accumulator out of the sibling fold. -/
lemma dfsL_acc_shift (g : DiGraph) (fuel : Nat) :
    ∀ (ws : List (List Char)) (v p : List (List Char)),
      ws.foldl (fun acc w => let s := dfsN g fuel acc.1 w; (s.1, acc.2 ++ s.2))
          (v, p)
        = ((dfsL g fuel v ws).1, p ++ (dfsL g fuel v ws).2) := by
  intro ws
  induction ws with
  | nil => intro v p; simp [dfsL]
  | cons w ws ih =>
      intro v p
      simp only [dfsL, List.foldl_cons]
      rw [ih, ih (dfsN g fuel v w).1]
      simp

/-- Unfolding of the sibling fold. -/
lemma dfsL_cons (g : DiGraph) (fuel : Nat) (vis : List (List Char))
    (w : List Char) (ws : List (List Char)) :
    dfsL g fuel vis (w :: ws)
      = ((dfsL g fuel (dfsN g fuel vis w).1 ws).1,
         (dfsN g fuel vis w).2 ++ (dfsL g fuel (dfsN g fuel vis w).1 ws).2) := by
  simp only [dfsL, List.foldl_cons]
  rw [dfsL_acc_shift]
  simp [dfsL]

/-- Soundness of the search: every node in the emitted postorder is
reachable from the node (resp. one of the nodes) the search started
from. -/
lemma dfsN_post_sound (g : DiGraph) :
    ∀ fuel : Nat,
      (∀ vis u x, x ∈ (dfsN g fuel vis u).2 → Reaches g u x)
        ∧ (∀ ws vis x, x ∈ (dfsL g fuel vis ws).2 →
            ∃ w ∈ ws, Reaches g w x) := by
  have hL : ∀ fuel : Nat,
      (∀ vis u x, x ∈ (dfsN g fuel vis u).2 → Reaches g u x) →
      ∀ ws vis x, x ∈ (dfsL g fuel vis ws).2 → ∃ w ∈ ws, Reaches g w x := by
    intro fuel hN ws
    induction ws with
    | nil => intro vis x hx; simp [dfsL] at hx
    | cons w ws ih =>
        intro vis x hx
        rw [dfsL_cons] at hx
        rcases List.mem_append.mp hx with hx | hx
        · exact ⟨w, by simp, hN _ _ _ hx⟩
        · rcases ih _ _ hx with ⟨w2, hw2, hr⟩
          exact ⟨w2, by simp [hw2], hr⟩
  intro fuel
  induction fuel with
  | zero =>
      refine ⟨fun vis u x hx => by simp [dfsN] at hx, ?_⟩
      exact hL 0 (fun vis u x hx => by simp [dfsN] at hx)
  | succ fuel ih =>
      have hN : ∀ vis u x, x ∈ (dfsN g (fuel + 1) vis u).2 → Reaches g u x := by
        intro vis u x hx
        by_cases hu : u ∈ vis
        · rw [dfsN_mem g fuel vis u hu] at hx
          simp at hx
        · rw [dfsN_not_mem g fuel vis u hu] at hx
          rcases List.mem_append.mp hx with hx | hx
          · rcases (hL fuel ih.1) _ _ _ hx with ⟨w, hw, hr⟩
            exact Reaches.head hw hr
          · have hxu : x = u := by simpa using hx
            rw [hxu]
            exact Reaches.refl u
      exact ⟨hN, hL _ hN⟩

/-- Every node of the computed postorder is reachable from the start. -/
lemma dfsPost_sound (g : DiGraph) (start x : List Char)
    (hx : x ∈ dfsPost g start) : Reaches g start x :=
  (dfsN_post_sound g (dfsFuel g)).1 [] start x hx

/-! ### The domain of the computed mapping -/

/-- A key absent from an association list looks up to `none`. -/
lemma lookup_eq_none_of_not_mem {β : Type} (m : List (List Char × β))
    (u : List Char) (h : u ∉ m.map Prod.fst) : List.lookup u m = none := by
  induction m with
  | nil => rfl
  | cons p rest ih =>
      rcases p with ⟨k, v⟩
      simp only [List.map_cons, List.mem_cons, not_or] at h
      have hne : (u == k) = false := beq_eq_false_iff_ne.mpr h.1
      simp [List.lookup, hne, ih h.2]

/-- `setKey` adds at most the written key. -/
lemma mem_keys_setKey {β : Type} (m : List (List Char × β)) (k : List Char)
    (v : β) (x : List Char) (hx : x ∈ (setKey m k v).map Prod.fst) :
    x ∈ m.map Prod.fst ∨ x = k := by
  induction m with
  | nil => simpa [setKey] using hx
  | cons p rest ih =>
      rcases p with ⟨k', v'⟩
      by_cases he : k' = k
      · simp only [setKey] at hx
        rw [if_pos he] at hx
        simp only [List.map_cons, List.mem_cons] at hx ⊢
        exact Or.inl hx
      · simp only [setKey] at hx
        rw [if_neg he] at hx
        simp only [List.map_cons, List.mem_cons] at hx ⊢
        rcases hx with hx | hx
        · exact Or.inl (Or.inl hx)
        · rcases ih hx with h2 | h2
          · exact Or.inl (Or.inr h2)
          · exact Or.inr h2

/-- A pass only writes entries for nodes of the processing order. -/
lemma chkPass_keys (g : DiGraph) (dfn : List (List Char × Nat)) (ifuel : Nat) :
    ∀ (us : List (List Char)) (idom : List (List Char × List Char))
      (ch : Bool) (m : List (List Char × List Char)) (ch2 : Bool),
      chkPass g dfn ifuel us idom ch = some (m, ch2) →
      ∀ k, k ∈ m.map Prod.fst → k ∈ idom.map Prod.fst ∨ k ∈ us := by
  intro us
  induction us with
  | nil =>
      intro idom ch m ch2 h k hk
      simp only [chkPass, Option.some.injEq, Prod.mk.injEq] at h
      rw [← h.1] at hk
      exact Or.inl hk
  | cons u us ih =>
      intro idom ch m ch2 h k hk
      simp only [chkPass] at h
      split at h
      · exact absurd h (by simp)
      · split at h
        · split at h
          · rcases ih idom ch m ch2 h k hk with h2 | h2
            · exact Or.inl h2
            · exact Or.inr (by simp [h2])
          · rcases ih _ _ m ch2 h k hk with h2 | h2
            · rcases mem_keys_setKey idom u _ k h2 with h3 | h3
              · exact Or.inl h3
              · exact Or.inr (by simp [h3])
            · exact Or.inr (by simp [h2])
        · rcases ih _ _ m ch2 h k hk with h2 | h2
          · rcases mem_keys_setKey idom u _ k h2 with h3 | h3
            · exact Or.inl h3
            · exact Or.inr (by simp [h3])
          · exact Or.inr (by simp [h2])

/-- The whole fixpoint loop only writes entries for nodes of the
processing order. -/
lemma chkLoop_keys (g : DiGraph) (dfn : List (List Char × Nat))
    (ifuel : Nat) (order : List (List Char)) :
    ∀ (f : Nat) (idom m : List (List Char × List Char)),
      chkLoop g dfn ifuel order f idom = some m →
      ∀ k, k ∈ m.map Prod.fst → k ∈ idom.map Prod.fst ∨ k ∈ order := by
  intro f
  induction f with
  | zero =>
      intro idom m h k hk
      simp only [chkLoop, Option.some.injEq] at h
      rw [← h] at hk
      exact Or.inl hk
  | succ f ih =>
      intro idom m h k hk
      simp only [chkLoop] at h
      split at h
      · exact absurd h (by simp)
      · next idom2 changed hp =>
          split at h
          · rcases ih idom2 m h k hk with h2 | h2
            · exact chkPass_keys g dfn ifuel order idom false idom2 changed hp k h2
            · exact Or.inr h2
          · rw [Option.some.injEq] at h
            rw [← h] at hk
            exact chkPass_keys g dfn ifuel order idom false idom2 changed hp k hk

/-! ### Structure of the depth-first postorder -/

/-- Visited/postorder bookkeeping of the search: the resulting visited
list is the old one plus exactly the emitted postorder, the postorder has
no duplicates, and it is disjoint from the previously visited nodes. -/
lemma dfs_vis_rel (g : DiGraph) :
    ∀ fuel : Nat,
      (∀ vis u,
        (∀ x, x ∈ (dfsN g fuel vis u).1
            ↔ x ∈ (dfsN g fuel vis u).2 ∨ x ∈ vis)
          ∧ (dfsN g fuel vis u).2.Nodup
          ∧ (∀ x ∈ (dfsN g fuel vis u).2, x ∉ vis))
        ∧ (∀ ws vis,
          (∀ x, x ∈ (dfsL g fuel vis ws).1
              ↔ x ∈ (dfsL g fuel vis ws).2 ∨ x ∈ vis)
            ∧ (dfsL g fuel vis ws).2.Nodup
            ∧ (∀ x ∈ (dfsL g fuel vis ws).2, x ∉ vis)) := by
  have hL : ∀ fuel : Nat,
      (∀ vis u,
        (∀ x, x ∈ (dfsN g fuel vis u).1
            ↔ x ∈ (dfsN g fuel vis u).2 ∨ x ∈ vis)
          ∧ (dfsN g fuel vis u).2.Nodup
          ∧ (∀ x ∈ (dfsN g fuel vis u).2, x ∉ vis)) →
      ∀ ws vis,
        (∀ x, x ∈ (dfsL g fuel vis ws).1
            ↔ x ∈ (dfsL g fuel vis ws).2 ∨ x ∈ vis)
          ∧ (dfsL g fuel vis ws).2.Nodup
          ∧ (∀ x ∈ (dfsL g fuel vis ws).2, x ∉ vis) := by
    intro fuel hN ws
    induction ws with
    | nil =>
        intro vis
        refine ⟨fun x => ?_, by simp [dfsL], by simp [dfsL]⟩
        simp [dfsL]
    | cons w ws ih =>
        intro vis
        obtain ⟨h1iff, h1nd, h1dj⟩ := hN vis w
        obtain ⟨h2iff, h2nd, h2dj⟩ := ih (dfsN g fuel vis w).1
        rw [dfsL_cons]
        refine ⟨fun x => ?_, ?_, ?_⟩
        · simp only [List.mem_append]
          rw [h2iff, h1iff]
          tauto
        · simp only []
          rw [List.nodup_append]
          refine ⟨h1nd, h2nd, ?_⟩
          intro x hx1 hx2
          have hx1v : x ∈ (dfsN g fuel vis w).1 := (h1iff x).mpr (Or.inl hx1)
          exact h2dj x hx2 hx1v
        · intro x hx
          simp only [List.mem_append] at hx
          rcases hx with hx | hx
          · exact h1dj x hx
          · intro hxv
            exact h2dj x hx ((h1iff x).mpr (Or.inr hxv))
  intro fuel
  induction fuel with
  | zero =>
      have hN0 : ∀ (vis : List (List Char)) (u : List Char),
          (∀ x, x ∈ (dfsN g 0 vis u).1 ↔ x ∈ (dfsN g 0 vis u).2 ∨ x ∈ vis)
            ∧ (dfsN g 0 vis u).2.Nodup
            ∧ (∀ x ∈ (dfsN g 0 vis u).2, x ∉ vis) := by
        intro vis u
        refine ⟨fun x => ?_, by simp [dfsN], by simp [dfsN]⟩
        simp [dfsN]
      exact ⟨hN0, hL 0 hN0⟩
  | succ fuel ih =>
      have hN : ∀ (vis : List (List Char)) (u : List Char),
          (∀ x, x ∈ (dfsN g (fuel + 1) vis u).1
              ↔ x ∈ (dfsN g (fuel + 1) vis u).2 ∨ x ∈ vis)
            ∧ (dfsN g (fuel + 1) vis u).2.Nodup
            ∧ (∀ x ∈ (dfsN g (fuel + 1) vis u).2, x ∉ vis) := by
        intro vis u
        by_cases hu : u ∈ vis
        · rw [dfsN_mem g fuel vis u hu]
          refine ⟨fun x => ?_, by simp, by simp⟩
          simp
        · rw [dfsN_not_mem g fuel vis u hu]
          obtain ⟨hiff, hnd, hdj⟩ := (hL fuel ih.1) (succs g u) (u :: vis)
          refine ⟨fun x => ?_, ?_, ?_⟩
          · simp only [List.mem_append, List.mem_singleton]
            rw [hiff]
            simp only [List.mem_cons]
            tauto
          · simp only []
            rw [List.nodup_append]
            refine ⟨hnd, List.nodup_singleton u, ?_⟩
            intro x hx1 hx2
            have hxu : x = u := by simpa using hx2
            subst hxu
            exact hdj x hx1 (by simp)
          · intro x hx
            simp only [List.mem_append, List.mem_singleton] at hx
            rcases hx with hx | hx
            · intro hxv
              exact hdj x hx (by simp [hxv])
            · rw [hx]
              exact hu
      exact ⟨hN, hL _ hN⟩

/-- The computed postorder of a present start node ends with the start
node, which occurs nowhere earlier in it; in particular the postorder is
nonempty and duplicate-free. -/
lemma dfsPost_decomp (g : DiGraph) (start : List Char) :
    ∃ M, dfsPost g start = M ++ [start] ∧ start ∉ M
      ∧ (dfsPost g start).Nodup := by
  have hfuel : dfsFuel g = (dfsFuel g - 1) + 1 := by
    unfold dfsFuel
    omega
  have hnd := ((dfs_vis_rel g (dfsFuel g)).1 [] start).2.1
  refine ⟨(dfsL g (dfsFuel g - 1) [start] (succs g start)).2, ?_, ?_, hnd⟩
  · unfold dfsPost
    rw [hfuel, dfsN_not_mem g _ [] start (by simp)]
    simp
  · obtain ⟨_, _, hdj⟩ :=
      ((dfs_vis_rel g (dfsFuel g - 1)).2) (succs g start) [start]
    intro hm
    exact hdj start hm (by simp)

/-- `After l x p`: somewhere in `l` the element `x` occurs with `p`
occurring strictly later. -/
def After (l : List (List Char)) (x p : List Char) : Prop :=
  ∃ l1 l2, l = l1 ++ x :: l2 ∧ p ∈ l2

/-- `After` is stable under extending the list on the left. -/
lemma After.extend_left {l : List (List Char)} {x p : List Char}
    (A : List (List Char)) (h : After l x p) : After (A ++ l) x p := by
  obtain ⟨l1, l2, he, hp⟩ := h
  exact ⟨A ++ l1, l2, by rw [he, List.append_assoc], hp⟩

/-- `After` is stable under extending the list on the right. -/
lemma After.extend_right {l : List (List Char)} {x p : List Char}
    (B : List (List Char)) (h : After l x p) : After (l ++ B) x p := by
  obtain ⟨l1, l2, he, hp⟩ := h
  exact ⟨l1, l2 ++ B, by rw [he]; simp, by simp [hp]⟩

/-- An element of the front block is `After`-related to an element of the
back block. -/
lemma After.of_mem_front {l : List (List Char)} {x p : List Char}
    (hx : x ∈ l) (B : List (List Char)) (hp : p ∈ B) : After (l ++ B) x p := by
  obtain ⟨s, t, he⟩ := List.append_of_mem hx
  exact ⟨s, t ++ B, by rw [he]; simp, by simp [hp]⟩

/-- Everything in the emitted postorder other than the search start is
the target of an edge whose source occurs later in the postorder (its
discoverer finishes after it). -/
lemma dfs_parent (g : DiGraph) :
    ∀ fuel : Nat,
      (∀ vis u x, x ∈ (dfsN g fuel vis u).2 →
        x = u ∨ ∃ p, x ∈ succs g p ∧ After (dfsN g fuel vis u).2 x p)
        ∧ (∀ ws vis x, x ∈ (dfsL g fuel vis ws).2 →
          x ∈ ws ∨ ∃ p, x ∈ succs g p ∧ After (dfsL g fuel vis ws).2 x p) := by
  have hL : ∀ fuel : Nat,
      (∀ vis u x, x ∈ (dfsN g fuel vis u).2 →
        x = u ∨ ∃ p, x ∈ succs g p ∧ After (dfsN g fuel vis u).2 x p) →
      ∀ ws vis x, x ∈ (dfsL g fuel vis ws).2 →
        x ∈ ws ∨ ∃ p, x ∈ succs g p ∧ After (dfsL g fuel vis ws).2 x p := by
    intro fuel hN ws
    induction ws with
    | nil => intro vis x hx; simp [dfsL] at hx
    | cons w ws ih =>
        intro vis x hx
        rw [dfsL_cons] at hx ⊢
        simp only [List.mem_append] at hx
        rcases hx with hx | hx
        · rcases hN _ _ _ hx with he | ⟨p, hps, hafter⟩
          · exact Or.inl (by simp [he])
          · exact Or.inr ⟨p, hps, hafter.extend_right _⟩
        · rcases ih _ _ hx with he | ⟨p, hps, hafter⟩
          · exact Or.inl (by simp [he])
          · exact Or.inr ⟨p, hps, hafter.extend_left _⟩
  intro fuel
  induction fuel with
  | zero =>
      have hN0 : ∀ (vis : List (List Char)) (u x : List Char),
          x ∈ (dfsN g 0 vis u).2 →
          x = u ∨ ∃ p, x ∈ succs g p ∧ After (dfsN g 0 vis u).2 x p := by
        intro vis u x hx
        simp [dfsN] at hx
      exact ⟨hN0, hL 0 hN0⟩
  | succ fuel ih =>
      have hN : ∀ (vis : List (List Char)) (u x : List Char),
          x ∈ (dfsN g (fuel + 1) vis u).2 →
          x = u ∨ ∃ p, x ∈ succs g p ∧ After (dfsN g (fuel + 1) vis u).2 x p := by
        intro vis u x hx
        by_cases hu : u ∈ vis
        · rw [dfsN_mem g fuel vis u hu] at hx
          simp at hx
        · rw [dfsN_not_mem g fuel vis u hu] at hx ⊢
          simp only [List.mem_append, List.mem_singleton] at hx
          rcases hx with hx | hx
          · rcases (hL fuel ih.1) _ _ _ hx with hw | ⟨p, hps, hafter⟩
            · exact Or.inr ⟨u, hw, After.of_mem_front hx _ (by simp)⟩
            · exact Or.inr ⟨p, hps, hafter.extend_right _⟩
          · exact Or.inl hx
      exact ⟨hN, hL _ hN⟩

/-! ### Association-list and index utilities for the fixpoint invariants -/

/-- Position of the first occurrence of `x` in `l` (length if absent);
the postorder number `dfn` is this index into the postorder list. -/
def idxOf (l : List (List Char)) (x : List Char) : Nat :=
  match l with
  | [] => 0
  | a :: rest => if a = x then 0 else idxOf rest x + 1

/-- The index of a member is within bounds. -/
lemma idxOf_lt_length {l : List (List Char)} {x : List Char} (h : x ∈ l) :
    idxOf l x < l.length := by
  induction l with
  | nil => simp at h
  | cons a rest ih =>
      by_cases he : a = x
      · simp [idxOf, he]
      · have hx : x ∈ rest := by
          rcases List.mem_cons.mp h with h1 | h1
          · exact absurd h1.symm he
          · exact h1
        have hlt := ih hx
        simp only [idxOf, he, if_false, List.length_cons]
        omega

/-- Members with the same index are equal. -/
lemma idxOf_inj {l : List (List Char)} {x y : List Char} (hx : x ∈ l)
    (hy : y ∈ l) (h : idxOf l x = idxOf l y) : x = y := by
  induction l with
  | nil => simp at hx
  | cons a rest ih =>
      by_cases hax : a = x <;> by_cases hay : a = y
      · rw [← hax, ← hay]
      · rw [idxOf, if_pos hax, idxOf, if_neg hay] at h
        exact absurd h.symm (by omega)
      · rw [idxOf, if_neg hax, idxOf, if_pos hay] at h
        exact absurd h (by omega)
      · rw [idxOf, if_neg hax, idxOf, if_neg hay] at h
        have hx2 : x ∈ rest := by
          rcases List.mem_cons.mp hx with h1 | h1
          · exact absurd h1.symm hax
          · exact h1
        have hy2 : y ∈ rest := by
          rcases List.mem_cons.mp hy with h1 | h1
          · exact absurd h1.symm hay
          · exact h1
        exact ih hx2 hy2 (by omega)

/-- On a duplicate-free list, `idxOf` inverts indexing. -/
lemma idxOf_getElem {l : List (List Char)} (hnd : l.Nodup) :
    ∀ i (h : i < l.length), idxOf l l[i] = i := by
  induction l with
  | nil => intro i h; simp at h
  | cons a rest ih =>
      intro i h
      cases i with
      | zero => simp [idxOf]
      | succ j =>
          have hj : j < rest.length := by
            simpa using h
          have hmem : rest[j] ∈ rest := List.getElem_mem hj
          have hane : a ≠ rest[j] := by
            intro he
            rw [he] at hnd
            exact (List.nodup_cons.mp hnd).1 hmem
          have hget : (a :: rest)[j + 1] = rest[j] := by simp
          rw [hget, idxOf, if_neg hane, ih (List.nodup_cons.mp hnd).2 j hj]

/-- Index of a member of the front block of an append. -/
lemma idxOf_append_not_mem {l1 : List (List Char)} {x : List Char}
    (h : x ∉ l1) (l2 : List (List Char)) :
    idxOf (l1 ++ l2) x = l1.length + idxOf l2 x := by
  induction l1 with
  | nil => simp
  | cons a rest ih =>
      have hne : a ≠ x := fun he => h (by simp [he])
      have hx : x ∉ rest := fun hm => h (by simp [hm])
      have h2 := ih hx
      simp only [List.cons_append, idxOf, hne, if_false, List.length_cons]
      simp only [List.append_eq] at h2 ⊢
      omega

/-- A present key looks up to `some`. -/
lemma lookup_isSome_iff_mem_keys {β : Type} (m : List (List Char × β))
    (u : List Char) : (List.lookup u m).isSome ↔ u ∈ m.map Prod.fst := by
  induction m with
  | nil => simp [List.lookup]
  | cons p rest ih =>
      rcases p with ⟨k, v⟩
      by_cases he : u = k
      · have hb : (u == k) = true := beq_iff_eq.mpr he
        simp only [List.lookup, hb, List.map_cons, List.mem_cons]
        constructor
        · intro _
          exact Or.inl he
        · intro _
          rfl
      · have hb : (u == k) = false := beq_eq_false_iff_ne.mpr he
        simp only [List.lookup, hb, List.map_cons, List.mem_cons]
        rw [ih]
        constructor
        · intro h2
          exact Or.inr h2
        · intro h2
          rcases h2 with h2 | h2
          · exact absurd h2 he
          · exact h2

/-- Looking up the just-written key. -/
lemma lookup_setKey_self {β : Type} (m : List (List Char × β))
    (k : List Char) (v : β) : List.lookup k (setKey m k v) = some v := by
  induction m with
  | nil => simp [setKey, List.lookup]
  | cons p rest ih =>
      rcases p with ⟨k', v'⟩
      by_cases he : k' = k
      · have hb : (k == k') = true := beq_iff_eq.mpr he.symm
        simp [setKey, he, List.lookup, hb]
      · have hb : (k == k') = false :=
          beq_eq_false_iff_ne.mpr fun h2 => he h2.symm
        simp [setKey, he, List.lookup, hb, ih]

/-- Looking up another key after a write. -/
lemma lookup_setKey_ne {β : Type} (m : List (List Char × β))
    (k x : List Char) (v : β) (h : x ≠ k) :
    List.lookup x (setKey m k v) = List.lookup x m := by
  induction m with
  | nil =>
      have hb : (x == k) = false := beq_eq_false_iff_ne.mpr h
      simp [setKey, List.lookup, hb]
  | cons p rest ih =>
      rcases p with ⟨k', v'⟩
      by_cases he : k' = k
      · subst he
        have hb : (x == k') = false := beq_eq_false_iff_ne.mpr h
        simp [setKey, List.lookup, hb]
      · simp only [setKey, he, if_false, List.lookup]
        cases hxk : x == k' with
        | true => rfl
        | false => exact ih

/-- Writing only grows the key set. -/
lemma mem_keys_setKey_of_mem {β : Type} (m : List (List Char × β))
    (k x : List Char) (v : β) (h : x ∈ m.map Prod.fst) :
    x ∈ (setKey m k v).map Prod.fst := by
  induction m with
  | nil => simp at h
  | cons p rest ih =>
      rcases p with ⟨k', v'⟩
      by_cases he : k' = k
      · simp only [setKey, if_pos he, List.map_cons]
        simp only [List.map_cons] at h
        exact h
      · simp only [List.map_cons, List.mem_cons] at h
        simp only [setKey, if_neg he, List.map_cons, List.mem_cons]
        rcases h with h | h
        · exact Or.inl h
        · exact Or.inr (ih h)

/-- The written key is in the key set. -/
lemma mem_keys_setKey_self {β : Type} (m : List (List Char × β))
    (k : List Char) (v : β) : k ∈ (setKey m k v).map Prod.fst := by
  induction m with
  | nil =>
      simp only [setKey, List.map_cons, List.map_nil, List.mem_cons]
      exact Or.inl trivial
  | cons p rest ih =>
      rcases p with ⟨k', v'⟩
      by_cases he : k' = k
      · simp only [setKey, if_pos he, List.map_cons, List.mem_cons]
        exact Or.inl he.symm
      · simp only [setKey, if_neg he, List.map_cons, List.mem_cons]
        exact Or.inr ih

/-- Looking a member up in the swapped enumeration yields its index. -/
lemma lookup_enumFrom (u : List Char) :
    ∀ (l : List (List Char)) (n : Nat), u ∈ l →
      List.lookup u ((List.enumFrom n l).map (fun p => (p.2, p.1)))
        = some (n + idxOf l u) := by
  intro l
  induction l with
  | nil => intro n h; simp at h
  | cons a rest ih =>
      intro n h
      by_cases he : u = a
      · have hb : (u == a) = true := beq_iff_eq.mpr he
        simp [List.enumFrom, List.lookup, hb, idxOf, he.symm]
      · have hb : (u == a) = false := beq_eq_false_iff_ne.mpr he
        have hx : u ∈ rest := by
          rcases List.mem_cons.mp h with h1 | h1
          · exact absurd h1 he
          · exact h1
        have hane : a ≠ u := fun h2 => he h2.symm
        simp only [List.enumFrom, List.map_cons, List.lookup, hb,
          ih (n + 1) hx, idxOf, hane, if_false]
        congr 1
        omega

/-- Looking a member up in the `dfn` dictionary built from the postorder
yields its postorder number. -/
lemma lookup_dfn (N : List (List Char)) (u : List Char) (h : u ∈ N) :
    List.lookup u (N.enum.map (fun p => (p.2, p.1))) = some (idxOf N u) := by
  have := lookup_enumFrom u N 0 h
  simpa [List.enum] using this

/-! ### Invariants of the Cooper–Harvey–Kennedy iteration -/

/-- Invariant of the `idom` map: the start maps to itself, and every
entry maps a postorder node to a postorder node that already has an entry
and (except for the start) a strictly larger postorder number. -/
def ValInv (N : List (List Char)) (start : List Char)
    (m : List (List Char × List Char)) : Prop :=
  List.lookup start m = some start ∧
    ∀ u w, List.lookup u m = some w →
      u ∈ N ∧ w ∈ N ∧ w ∈ m.map Prod.fst ∧
        (u ≠ start → idxOf N u < idxOf N w)

/-- All postorder nodes with postorder number at least `t` have an entry. -/
def KeysUp (N : List (List Char)) (m : List (List Char × List Char))
    (t : Nat) : Prop :=
  ∀ x ∈ N, t ≤ idxOf N x → x ∈ m.map Prod.fst

/-- Keys of a `ValInv` map are postorder nodes. -/
lemma ValInv.mem_N {N : List (List Char)} {start : List Char}
    {m : List (List Char × List Char)} (hv : ValInv N start m)
    {x : List Char} (hx : x ∈ m.map Prod.fst) : x ∈ N := by
  have hs := (lookup_isSome_iff_mem_keys m x).mpr hx
  obtain ⟨w0, hw0⟩ := Option.isSome_iff_exists.mp hs
  exact (hv.2 x w0 hw0).1

/-- Under the invariant, the `intersect` climb terminates (within fuel
covering the remaining postorder numbers) on a key whose postorder number
is at least both arguments'. -/
lemma intersectF_ok (N : List (List Char)) (start : List Char)
    (m : List (List Char × List Char))
    (hlast : idxOf N start = N.length - 1) (hv : ValInv N start m) :
    ∀ (fuel : Nat) (u v : List Char),
      u ∈ m.map Prod.fst → v ∈ m.map Prod.fst →
      (N.length - idxOf N u) + (N.length - idxOf N v) + 1 ≤ fuel →
      ∃ w, intersectF (N.enum.map fun p => (p.2, p.1)) m fuel u v = some w
        ∧ w ∈ m.map Prod.fst ∧ idxOf N u ≤ idxOf N w
        ∧ idxOf N v ≤ idxOf N w := by
  intro fuel
  induction fuel with
  | zero =>
      intro u v hu hv2 hf
      have h1 : idxOf N u < N.length := idxOf_lt_length (hv.mem_N hu)
      omega
  | succ fuel ih =>
      intro u v hu hv2 hf
      by_cases huv : u = v
      · subst huv
        exact ⟨u, by simp [intersectF], hu, Nat.le_refl _, Nat.le_refl _⟩
      · have uN : u ∈ N := hv.mem_N hu
        have vN : v ∈ N := hv.mem_N hv2
        have hdu := lookup_dfn N u uN
        have hdv := lookup_dfn N v vN
        have hboundu : idxOf N u < N.length := idxOf_lt_length uN
        have hboundv : idxOf N v < N.length := idxOf_lt_length vN
        rcases Nat.lt_trichotomy (idxOf N u) (idxOf N v) with hlt | heq | hgt
        · have hus : u ≠ start := by
            intro he
            rw [he, hlast] at hlt
            omega
          obtain ⟨u2, hu2⟩ := Option.isSome_iff_exists.mp
            ((lookup_isSome_iff_mem_keys m u).mpr hu)
          obtain ⟨_, u2N, u2k, hrank⟩ := hv.2 u u2 hu2
          have hrank2 : idxOf N u < idxOf N u2 := hrank hus
          obtain ⟨w, hw, hwk, hw1, hw2⟩ := ih u2 v u2k hv2 (by
            have := idxOf_lt_length u2N
            omega)
          refine ⟨w, ?_, hwk, Nat.le_trans (Nat.le_of_lt hrank2) hw1, hw2⟩
          simp only [intersectF, if_neg huv, hdu, hdv, if_pos hlt, hu2]
          exact hw
        · exact absurd (idxOf_inj uN vN heq) huv
        · have hvs : v ≠ start := by
            intro he
            rw [he, hlast] at hgt
            omega
          obtain ⟨v2, hv2e⟩ := Option.isSome_iff_exists.mp
            ((lookup_isSome_iff_mem_keys m v).mpr hv2)
          obtain ⟨_, v2N, v2k, hrank⟩ := hv.2 v v2 hv2e
          have hrank2 : idxOf N v < idxOf N v2 := hrank hvs
          obtain ⟨w, hw, hwk, hw1, hw2⟩ := ih u v2 hu v2k (by
            have := idxOf_lt_length v2N
            omega)
          refine ⟨w, ?_, hwk, hw1, Nat.le_trans (Nat.le_of_lt hrank2) hw2⟩
          have hnlt : ¬ idxOf N u < idxOf N v := by omega
          simp only [intersectF, if_neg huv, hdu, hdv, if_neg hnlt,
            if_pos hgt, hv2e]
          exact hw

/-- `reduce(intersect, …)` over a nonempty list of keys yields a key
whose postorder number is at least every argument's. -/
lemma reduceIntersect_ok (N : List (List Char)) (start : List Char)
    (m : List (List Char × List Char))
    (hlast : idxOf N start = N.length - 1) (hv : ValInv N start m) :
    ∀ (cs : List (List Char)) (c : List Char),
      c ∈ m.map Prod.fst → (∀ x ∈ cs, x ∈ m.map Prod.fst) →
      ∃ w, reduceIntersect (N.enum.map fun p => (p.2, p.1)) m
          (2 * N.length + 2) (c :: cs) = some w
        ∧ w ∈ m.map Prod.fst ∧ idxOf N c ≤ idxOf N w
        ∧ ∀ x ∈ cs, idxOf N x ≤ idxOf N w := by
  intro cs
  induction cs with
  | nil =>
      intro c hc _
      exact ⟨c, rfl, hc, Nat.le_refl _, by simp⟩
  | cons c2 cs ih =>
      intro c hc hcs
      have hc2 : c2 ∈ m.map Prod.fst := hcs c2 (by simp)
      obtain ⟨w1, hw1, hw1k, hb1, hb2⟩ :=
        intersectF_ok N start m hlast hv (2 * N.length + 2) c c2 hc hc2
          (by
            have h1 : idxOf N c < N.length := idxOf_lt_length (hv.mem_N hc)
            omega)
      obtain ⟨w, hw, hwk, hwc, hwcs⟩ :=
        ih w1 hw1k (fun x hx => hcs x (by simp [hx]))
      refine ⟨w, ?_, hwk, Nat.le_trans hb1 hwc, ?_⟩
      · show (c2 :: cs).foldlM
            (fun a v => intersectF (N.enum.map fun p => (p.2, p.1)) m
              (2 * N.length + 2) a v) c = some w
        rw [List.foldlM_cons, hw1]
        exact hw
      · intro x hx
        rcases List.mem_cons.mp hx with hx | hx
        · rw [hx]
          exact Nat.le_trans hb2 hwc
        · exact hwcs x hx

/-- Peeling the top element off a reversed prefix. -/
lemma take_reverse_succ (N : List (List Char)) (t : Nat) (h : t < N.length) :
    (N.take (t + 1)).reverse = N[t] :: (N.take t).reverse := by
  rw [List.take_succ, List.getElem?_eq_getElem h]
  simp

/-- The invariant survives writing a better candidate for a non-start
node. -/
lemma valInv_setKey {N : List (List Char)} {start : List Char}
    {m : List (List Char × List Char)} (hv : ValInv N start m)
    {u w : List Char} (hu : u ∈ N) (hw : w ∈ m.map Prod.fst)
    (hune : u ≠ start) (hrank : idxOf N u < idxOf N w) :
    ValInv N start (SymbolGraph.setKey m u w) := by
  constructor
  · rw [lookup_setKey_ne m u start w fun he => hune he.symm]
    exact hv.1
  · intro a b hab
    by_cases hau : a = u
    · subst hau
      rw [lookup_setKey_self] at hab
      have hb : b = w := (Option.some.inj hab).symm
      subst hb
      exact ⟨hu, hv.mem_N hw, mem_keys_setKey_of_mem _ _ _ _ hw,
        fun _ => hrank⟩
    · rw [lookup_setKey_ne m u a w hau] at hab
      obtain ⟨h1, h2, h3, h4⟩ := hv.2 a b hab
      exact ⟨h1, h2, mem_keys_setKey_of_mem _ _ _ _ h3, h4⟩

/-- Lowering the coverage threshold by one after securing the node at
that postorder number. -/
lemma KeysUp.lower {N : List (List Char)}
    {m : List (List Char × List Char)} {t : Nat} {u : List Char}
    (hk : KeysUp N m (t + 1)) (hu : u ∈ N) (hidxu : idxOf N u = t)
    (huk : u ∈ m.map Prod.fst) : KeysUp N m t := by
  intro x hx hge
  by_cases he : idxOf N x = t
  · have hxu : x = u := idxOf_inj hx hu (by rw [he, hidxu])
    rw [hxu]
    exact huk
  · exact hk x hx (by omega)

/-- Coverage is preserved by writes. -/
lemma keysUp_setKey {N : List (List Char)}
    {m : List (List Char × List Char)} {t : Nat} (hk : KeysUp N m t)
    (u w : List Char) : KeysUp N (SymbolGraph.setKey m u w) t :=
  fun x hx hge => mem_keys_setKey_of_mem _ _ _ _ (hk x hx hge)

/-- One pass of the fixpoint loop over a reversed postorder prefix
succeeds, preserves the invariant, and leaves every processed node with
an entry. -/
lemma chkPass_ok (g : DiGraph) (N : List (List Char)) (start : List Char)
    (hnd : N.Nodup) (hlast : idxOf N start = N.length - 1)
    (hparent : ∀ x ∈ N, x ≠ start →
      ∃ p, p ∈ preds g x ∧ p ∈ N ∧ idxOf N x < idxOf N p) :
    ∀ t : Nat, t ≤ N.length - 1 →
      ∀ (m : List (List Char × List Char)) (ch : Bool),
      ValInv N start m → KeysUp N m t →
      ∃ m2 ch2,
        chkPass g (N.enum.map fun p => (p.2, p.1)) (2 * N.length + 2)
          ((N.take t).reverse) m ch = some (m2, ch2)
        ∧ ValInv N start m2 ∧ KeysUp N m2 0 := by
  intro t
  induction t with
  | zero =>
      intro _ m ch hv hk
      exact ⟨m, ch, by simp [chkPass], hv, hk⟩
  | succ t ih =>
      intro htle m ch hv hk
      have htlen : t < N.length := by omega
      have hdecomp := take_reverse_succ N t htlen
      have huN : N[t] ∈ N := List.getElem_mem htlen
      have hidxu : idxOf N N[t] = t := idxOf_getElem hnd t htlen
      have hune : N[t] ≠ start := by
        intro he
        rw [he, hlast] at hidxu
        omega
      obtain ⟨p, hp, hpN, hpidx⟩ := hparent N[t] huN hune
      have hpk : p ∈ m.map Prod.fst := hk p hpN (by omega)
      have hpfil : p ∈ (preds g N[t]).filter
          (fun v => (List.lookup v m).isSome) := by
        rw [List.mem_filter]
        refine ⟨hp, ?_⟩
        exact (lookup_isSome_iff_mem_keys m p).mpr hpk
      cases hcand : (preds g N[t]).filter (fun v => (List.lookup v m).isSome) with
      | nil =>
          rw [hcand] at hpfil
          simp at hpfil
      | cons c cs =>
          have hcall : ∀ x ∈ c :: cs, x ∈ m.map Prod.fst := by
            intro x hx
            rw [← hcand] at hx
            have h2 := (List.mem_filter.mp hx).2
            exact (lookup_isSome_iff_mem_keys m x).mp (by simpa using h2)
          obtain ⟨w, hw, hwk, hwb, hwcs⟩ :=
            reduceIntersect_ok N start m hlast hv cs c (hcall c (by simp))
              (fun x hx => hcall x (by simp [hx]))
          have hwidx : t < idxOf N w := by
            have hpc : p ∈ c :: cs := by
              rw [← hcand]
              exact hpfil
            rcases List.mem_cons.mp hpc with he | hm
            · rw [he] at hpidx
              omega
            · have := hwcs p hm
              omega
          rw [hdecomp]
          cases hlu : List.lookup N[t] m with
          | some old =>
              by_cases hoe : old = w
              · have huk : N[t] ∈ m.map Prod.fst :=
                  (lookup_isSome_iff_mem_keys m N[t]).mp (by rw [hlu]; rfl)
                obtain ⟨m2, ch2, hrec, hv2, hk2⟩ :=
                  ih (by omega) m ch hv (hk.lower huN hidxu huk)
                refine ⟨m2, ch2, ?_, hv2, hk2⟩
                simp only [chkPass, hcand, hw, hlu, if_pos hoe]
                exact hrec
              · have hv2 := valInv_setKey hv huN hwk hune (by omega)
                have hk2 : KeysUp N (setKey m N[t] w) t :=
                  (keysUp_setKey hk N[t] w).lower huN hidxu
                    (mem_keys_setKey_self m N[t] w)
                obtain ⟨m2, ch2, hrec, hv3, hk3⟩ :=
                  ih (by omega) (setKey m N[t] w) true hv2 hk2
                refine ⟨m2, ch2, ?_, hv3, hk3⟩
                simp only [chkPass, hcand, hw, hlu, if_neg hoe]
                exact hrec
          | none =>
              have hv2 := valInv_setKey hv huN hwk hune (by omega)
              have hk2 : KeysUp N (setKey m N[t] w) t :=
                (keysUp_setKey hk N[t] w).lower huN hidxu
                  (mem_keys_setKey_self m N[t] w)
              obtain ⟨m2, ch2, hrec, hv3, hk3⟩ :=
                ih (by omega) (setKey m N[t] w) true hv2 hk2
              refine ⟨m2, ch2, ?_, hv3, hk3⟩
              simp only [chkPass, hcand, hw, hlu]
              exact hrec

/-- A pass needs its `KeysUp` threshold only up to where it starts;
strengthening: coverage of everything implies coverage above any
threshold. -/
lemma KeysUp.mono {N : List (List Char)}
    {m : List (List Char × List Char)} {s t : Nat} (hk : KeysUp N m s)
    (h : s ≤ t) : KeysUp N m t :=
  fun x hx hge => hk x hx (by omega)

/-- The fixpoint loop, started on a fully covered invariant map,
succeeds and preserves both properties whatever the pass budget. -/
lemma chkLoop_ok (g : DiGraph) (N : List (List Char)) (start : List Char)
    (hnd : N.Nodup) (hlast : idxOf N start = N.length - 1)
    (hparent : ∀ x ∈ N, x ≠ start →
      ∃ p, p ∈ preds g x ∧ p ∈ N ∧ idxOf N x < idxOf N p) :
    ∀ (f : Nat) (m : List (List Char × List Char)),
      ValInv N start m → KeysUp N m 0 →
      ∃ m2,
        chkLoop g (N.enum.map fun p => (p.2, p.1)) (2 * N.length + 2)
          ((N.take (N.length - 1)).reverse) f m = some m2
        ∧ ValInv N start m2 ∧ KeysUp N m2 0 := by
  intro f
  induction f with
  | zero =>
      intro m hv hk
      exact ⟨m, rfl, hv, hk⟩
  | succ f ih =>
      intro m hv hk
      obtain ⟨m1, ch1, hpass, hv1, hk1⟩ :=
        chkPass_ok g N start hnd hlast hparent (N.length - 1)
          (Nat.le_refl _) m false hv (hk.mono (Nat.zero_le _))
      cases ch1 with
      | true =>
          obtain ⟨m2, hrec, hv2, hk2⟩ := ih m1 hv1 hk1
          refine ⟨m2, ?_, hv2, hk2⟩
          simp only [chkLoop, hpass, if_true]
          exact hrec
      | false =>
          refine ⟨m1, ?_, hv1, hk1⟩
          simp [chkLoop, hpass]

/-- The whole loop from the initial `{start: start}` map (which covers
only the start) succeeds with at least one pass in the budget. -/
lemma chkLoop_top (g : DiGraph) (N : List (List Char)) (start : List Char)
    (hnd : N.Nodup) (hstart : start ∈ N)
    (hlast : idxOf N start = N.length - 1)
    (hparent : ∀ x ∈ N, x ≠ start →
      ∃ p, p ∈ preds g x ∧ p ∈ N ∧ idxOf N x < idxOf N p) :
    ∀ f : Nat,
      ∃ m2,
        chkLoop g (N.enum.map fun p => (p.2, p.1)) (2 * N.length + 2)
          ((N.take (N.length - 1)).reverse) (f + 1) [(start, start)] = some m2
        ∧ ValInv N start m2 ∧ KeysUp N m2 0 := by
  intro f
  have hbs : (start == start) = true := beq_iff_eq.mpr rfl
  have hv0 : ValInv N start [(start, start)] := by
    constructor
    · simp [List.lookup, hbs]
    · intro u w hab
      have hus : u = start := by
        by_cases h2 : u = start
        · exact h2
        · have hb2 : (u == start) = false := beq_eq_false_iff_ne.mpr h2
          simp [List.lookup, hb2] at hab
      rw [hus] at hab
      have hws : w = start := by
        simp only [List.lookup, hbs] at hab
        exact (Option.some.inj hab).symm
      refine ⟨by rw [hus]; exact hstart, by rw [hws]; exact hstart,
        by rw [hws]; simp, ?_⟩
      intro h2
      exact absurd hus h2
  have hk0 : KeysUp N [(start, start)] (N.length - 1) := by
    intro x hx hge
    have h1 : idxOf N x < N.length := idxOf_lt_length hx
    have hxs : x = start := idxOf_inj hx hstart (by omega)
    rw [hxs]
    simp
  obtain ⟨m1, ch1, hpass, hv1, hk1⟩ :=
    chkPass_ok g N start hnd hlast hparent (N.length - 1) (Nat.le_refl _)
      [(start, start)] false hv0 hk0
  cases ch1 with
  | true =>
      obtain ⟨m2, hrec, hv2, hk2⟩ :=
        chkLoop_ok g N start hnd hlast hparent f m1 hv1 hk1
      refine ⟨m2, ?_, hv2, hk2⟩
      simp only [chkLoop, hpass, if_true]
      exact hrec
  | false =>
      refine ⟨m1, ?_, hv1, hk1⟩
      simp [chkLoop, hpass]

/-! ### Completeness of the depth-first search -/

/-- Filtering by a stronger predicate yields at most as many elements. -/
lemma filter_len_mono (p q : List Char → Bool)
    (h : ∀ x, p x = true → q x = true) :
    ∀ l : List (List Char), (l.filter p).length ≤ (l.filter q).length := by
  intro l
  induction l with
  | nil => simp
  | cons a as ih =>
      cases hp : p a with
      | true =>
          have hq := h a hp
          simp only [List.filter_cons, hp, hq, if_true, List.length_cons]
          omega
      | false =>
          cases hq : q a with
          | true =>
              simp only [List.filter_cons, hp, hq, Bool.false_eq_true,
                if_false, if_true, List.length_cons]
              omega
          | false =>
              simp only [List.filter_cons, hp, hq, Bool.false_eq_true,
                if_false]
              exact ih

/-- Marking an unvisited universe element strictly shrinks the count of
unvisited universe elements. -/
lemma count_unvisited_strict (vis : List (List Char)) (u : List Char) :
    ∀ U : List (List Char), u ∈ U → u ∉ vis →
      (U.filter (fun x => decide (x ∉ u :: vis))).length
        < (U.filter (fun x => decide (x ∉ vis))).length := by
  have hmono := filter_len_mono (fun x => decide (x ∉ u :: vis))
    (fun x => decide (x ∉ vis)) (by
      intro x hx
      have h2 : x ∉ u :: vis := of_decide_eq_true hx
      exact decide_eq_true fun hm => h2 (by simp [hm]))
  intro U
  induction U with
  | nil => intro h; simp at h
  | cons a as ih =>
      intro haU hunv
      by_cases hau : a = u
      · have h1 : (decide (a ∉ u :: vis)) = false := by
          simp [hau]
        have h2 : (decide (a ∉ vis)) = true := by
          rw [hau]
          exact decide_eq_true hunv
        simp only [List.filter_cons, h1, h2, Bool.false_eq_true, if_false,
          if_true, List.length_cons]
        have := hmono as
        omega
      · have hu2 : u ∈ as := by
          rcases List.mem_cons.mp haU with h2 | h2
          · exact absurd h2.symm hau
          · exact h2
        by_cases hav : a ∈ vis
        · have h1 : (decide (a ∉ u :: vis)) = false := by
            simp [hav]
          have h2 : (decide (a ∉ vis)) = false := by
            simp [hav]
          simp only [List.filter_cons, h1, h2, Bool.false_eq_true, if_false]
          exact ih hu2 hunv
        · have h1 : (decide (a ∉ u :: vis)) = true := by
            refine decide_eq_true fun hm => ?_
            rcases List.mem_cons.mp hm with h2 | h2
            · exact hau h2
            · exact hav h2
          have h2 : (decide (a ∉ vis)) = true := decide_eq_true hav
          simp only [List.filter_cons, h1, h2, if_true, List.length_cons]
          have := ih hu2 hunv
          omega

/-- Growing the visited list never increases the unvisited count. -/
lemma count_unvisited_anti (U vis vis' : List (List Char))
    (h : ∀ x ∈ vis, x ∈ vis') :
    (U.filter (fun x => decide (x ∉ vis'))).length
      ≤ (U.filter (fun x => decide (x ∉ vis))).length :=
  filter_len_mono _ _ (by
    intro x hx
    have h2 : x ∉ vis' := of_decide_eq_true hx
    exact decide_eq_true fun hm => h2 (h x hm)) U

/-- With fuel exceeding the number of unvisited universe elements, the
search visits its argument, keeps the old visited nodes, and the visited
set it returns is closed under successors of newly visited nodes. -/
lemma dfs_closure (g : DiGraph) (U : List (List Char))
    (hU : ∀ p x, x ∈ succs g p → x ∈ U) :
    ∀ fuel : Nat,
      (∀ vis u, u ∈ U →
        (U.filter (fun x => decide (x ∉ vis))).length < fuel →
        (∀ y ∈ vis, y ∈ (dfsN g fuel vis u).1)
          ∧ u ∈ (dfsN g fuel vis u).1
          ∧ (∀ x, x ∈ (dfsN g fuel vis u).1 → x ∉ vis →
              ∀ y ∈ succs g x, y ∈ (dfsN g fuel vis u).1))
        ∧ (∀ ws vis, (∀ w ∈ ws, w ∈ U) →
            (U.filter (fun x => decide (x ∉ vis))).length < fuel →
            (∀ y ∈ vis, y ∈ (dfsL g fuel vis ws).1)
              ∧ (∀ w ∈ ws, w ∈ (dfsL g fuel vis ws).1)
              ∧ (∀ x, x ∈ (dfsL g fuel vis ws).1 → x ∉ vis →
                  ∀ y ∈ succs g x, y ∈ (dfsL g fuel vis ws).1)) := by
  have hL : ∀ fuel : Nat,
      (∀ vis u, u ∈ U →
        (U.filter (fun x => decide (x ∉ vis))).length < fuel →
        (∀ y ∈ vis, y ∈ (dfsN g fuel vis u).1)
          ∧ u ∈ (dfsN g fuel vis u).1
          ∧ (∀ x, x ∈ (dfsN g fuel vis u).1 → x ∉ vis →
              ∀ y ∈ succs g x, y ∈ (dfsN g fuel vis u).1)) →
      ∀ ws vis, (∀ w ∈ ws, w ∈ U) →
        (U.filter (fun x => decide (x ∉ vis))).length < fuel →
        (∀ y ∈ vis, y ∈ (dfsL g fuel vis ws).1)
          ∧ (∀ w ∈ ws, w ∈ (dfsL g fuel vis ws).1)
          ∧ (∀ x, x ∈ (dfsL g fuel vis ws).1 → x ∉ vis →
              ∀ y ∈ succs g x, y ∈ (dfsL g fuel vis ws).1) := by
    intro fuel hN ws
    induction ws with
    | nil =>
        intro vis _ _
        refine ⟨fun y hy => by simpa [dfsL] using hy, by simp, ?_⟩
        intro x hx hnx
        exact absurd (by simpa [dfsL] using hx) hnx
    | cons w ws ih =>
        intro vis hws hcnt
        obtain ⟨h1vis, h1mem, h1clo⟩ := hN vis w (hws w (by simp)) hcnt
        have hcnt2 :
            (U.filter (fun x => decide (x ∉ (dfsN g fuel vis w).1))).length
              < fuel :=
          Nat.lt_of_le_of_lt (count_unvisited_anti U vis _ h1vis) hcnt
        obtain ⟨h2vis, h2mem, h2clo⟩ :=
          ih (dfsN g fuel vis w).1 (fun x hx => hws x (by simp [hx])) hcnt2
        rw [dfsL_cons]
        refine ⟨fun y hy => h2vis y (h1vis y hy), ?_, ?_⟩
        · intro w2 hw2
          rcases List.mem_cons.mp hw2 with he | hm
          · rw [he]
            exact h2vis w (h1mem)
          · exact h2mem w2 hm
        · intro x hx hnx y hy
          by_cases hx1 : x ∈ (dfsN g fuel vis w).1
          · exact h2vis y (h1clo x hx1 hnx y hy)
          · exact h2clo x hx hx1 y hy
  intro fuel
  induction fuel with
  | zero =>
      have hN0 : ∀ (vis : List (List Char)) (u : List Char), u ∈ U →
          (U.filter (fun x => decide (x ∉ vis))).length < 0 →
          (∀ y ∈ vis, y ∈ (dfsN g 0 vis u).1)
            ∧ u ∈ (dfsN g 0 vis u).1
            ∧ (∀ x, x ∈ (dfsN g 0 vis u).1 → x ∉ vis →
                ∀ y ∈ succs g x, y ∈ (dfsN g 0 vis u).1) := by
        intro vis u _ hcnt
        exact absurd hcnt (by omega)
      exact ⟨hN0, hL 0 hN0⟩
  | succ fuel ih =>
      have hN : ∀ (vis : List (List Char)) (u : List Char), u ∈ U →
          (U.filter (fun x => decide (x ∉ vis))).length < fuel + 1 →
          (∀ y ∈ vis, y ∈ (dfsN g (fuel + 1) vis u).1)
            ∧ u ∈ (dfsN g (fuel + 1) vis u).1
            ∧ (∀ x, x ∈ (dfsN g (fuel + 1) vis u).1 → x ∉ vis →
                ∀ y ∈ succs g x, y ∈ (dfsN g (fuel + 1) vis u).1) := by
        intro vis u hu hcnt
        by_cases huv : u ∈ vis
        · rw [dfsN_mem g fuel vis u huv]
          refine ⟨fun y hy => hy, huv, ?_⟩
          intro x hx hnx
          exact absurd hx hnx
        · have hcnt2 :
              (U.filter (fun x => decide (x ∉ u :: vis))).length < fuel := by
            have := count_unvisited_strict vis u U hu huv
            omega
          obtain ⟨h1vis, h1mem, h1clo⟩ :=
            (hL fuel ih.1) (succs g u) (u :: vis) (fun x hx => hU u x hx)
              hcnt2
          rw [dfsN_not_mem g fuel vis u huv]
          refine ⟨?_, ?_, ?_⟩
          · intro y hy
            exact h1vis y (by simp [hy])
          · exact h1vis u (by simp)
          · intro x hx hnx y hy
            by_cases hxu : x = u
            · exact h1mem y (by rw [hxu] at hy; exact hy)
            · exact h1clo x hx (by simp [hxu, hnx]) y hy
      exact ⟨hN, hL _ hN⟩

/-- Every node reachable from the start appears in the computed
postorder. -/
lemma dfsPost_complete (g : DiGraph) (start x : List Char)
    (h : Reaches g start x) : x ∈ dfsPost g start := by
  have hU : ∀ p y, y ∈ succs g p → y ∈ start :: g.edges.map Prod.snd := by
    intro p y hy
    unfold succs at hy
    simp only [List.mem_map, List.mem_filter] at hy
    rcases hy with ⟨e, ⟨he, _⟩, hx⟩
    exact List.mem_cons_of_mem _ (List.mem_map.mpr ⟨e, he, hx⟩)
  have hcnt :
      ((start :: g.edges.map Prod.snd).filter
        (fun x => decide (x ∉ ([] : List (List Char))))).length < dfsFuel g := by
    have hle : ((start :: g.edges.map Prod.snd).filter
        (fun x => decide (x ∉ ([] : List (List Char))))).length
        ≤ (start :: g.edges.map Prod.snd).length :=
      List.length_filter_le _ _
    simp only [List.length_cons, List.length_map] at hle
    unfold dfsFuel
    omega
  obtain ⟨hvis, hmem, hclo⟩ :=
    (dfs_closure g (start :: g.edges.map Prod.snd) hU (dfsFuel g)).1 []
      start (by simp) hcnt
  have hreach : ∀ y, Reaches g start y →
      y ∈ (dfsN g (dfsFuel g) [] start).1 := by
    intro y hy
    induction hy with
    | refl => exact hmem
    | step h2 hs ih => exact hclo _ ih (by simp) _ hs
  have hin := hreach x h
  have hrel := (((dfs_vis_rel g (dfsFuel g)).1 [] start).1 x).mp hin
  rcases hrel with h2 | h2
  · exact h2
  · simp at h2

/-- A node reached from `u` is `u` itself or the target of some edge. -/
lemma Reaches.eq_or_target {g : DiGraph} {u x : List Char}
    (h : Reaches g u x) : x = u ∨ x ∈ g.edges.map Prod.snd := by
  induction h with
  | refl => exact Or.inl rfl
  | step h hs ih =>
      right
      unfold succs at hs
      simp only [List.mem_map, List.mem_filter] at hs ⊢
      rcases hs with ⟨e, ⟨he, _⟩, hx⟩
      exact ⟨e, he, hx⟩

/-- The DFS-tree parent property in postorder-number form: every
postorder node other than the start has a predecessor with a strictly
larger postorder number. -/
lemma dfsPost_parent_rank (g : DiGraph) (start : List Char) :
    ∀ x ∈ dfsPost g start, x ≠ start →
      ∃ p, p ∈ preds g x ∧ p ∈ dfsPost g start
        ∧ idxOf (dfsPost g start) x < idxOf (dfsPost g start) p := by
  intro x hx hxs
  rcases (dfs_parent g (dfsFuel g)).1 [] start x hx with he | ⟨p, hps, hafter⟩
  · exact absurd he hxs
  · obtain ⟨l1, l2, he, hp⟩ := hafter
    have hnd : (dfsPost g start).Nodup :=
      ((dfs_vis_rel g (dfsFuel g)).1 [] start).2.1
    have hnd2 := hnd
    rw [show dfsPost g start = l1 ++ x :: l2 from he,
      List.nodup_append] at hnd2
    obtain ⟨hnd1, hndx, hdisj⟩ := hnd2
    have hxl1 : x ∉ l1 := fun hm => (hdisj hm) (by simp)
    have hpl1 : p ∉ l1 := fun hm => (hdisj hm) (by simp [hp])
    have hpx : x ≠ p := by
      intro hpe
      rw [← hpe] at hp
      exact (List.nodup_cons.mp hndx).1 hp
    have hidx_x : idxOf (dfsPost g start) x = l1.length := by
      rw [show dfsPost g start = l1 ++ x :: l2 from he,
        idxOf_append_not_mem hxl1]
      simp [idxOf]
    have hidx_p : idxOf (dfsPost g start) p
        = l1.length + (idxOf l2 p + 1) := by
      rw [show dfsPost g start = l1 ++ x :: l2 from he,
        idxOf_append_not_mem hpl1]
      simp [idxOf, hpx]
    refine ⟨p, ?_, ?_, by omega⟩
    · unfold preds
      unfold succs at hps
      simp only [List.mem_map, List.mem_filter, decide_eq_true_eq] at hps ⊢
      rcases hps with ⟨e, ⟨he2, hdec⟩, hx2⟩
      exact ⟨e, ⟨he2, hx2⟩, hdec⟩
    · rw [show dfsPost g start = l1 ++ x :: l2 from he]
      simp [hp]

/-- When the root is a node, the whole analysis succeeds and its result
satisfies the fixpoint invariants: it covers exactly the postorder set
and every non-root entry strictly climbs in postorder number. -/
lemma immediate_dominators_ok (g : DiGraph) (root : List Char)
    (hmem : root ∈ g.nodes) :
    ∃ m, immediate_dominators g root = .ok m
      ∧ ValInv (dfsPost g root) root m ∧ KeysUp (dfsPost g root) m 0 := by
  obtain ⟨M, hdecomp, hsM, hnd⟩ := dfsPost_decomp g root
  have hstart : root ∈ dfsPost g root := by
    rw [hdecomp]
    simp
  have hlast : idxOf (dfsPost g root) root
      = (dfsPost g root).length - 1 := by
    rw [hdecomp, idxOf_append_not_mem hsM]
    simp [idxOf]
  obtain ⟨m2, hloop, hv2, hk2⟩ :=
    chkLoop_top g (dfsPost g root) root hnd hstart hlast
      (dfsPost_parent_rank g root) (g.nodes.length + g.edges.length + 2)
  refine ⟨m2, ?_, hv2, hk2⟩
  have hloop3 : chkLoop g ((dfsPost g root).enum.map fun p => (p.2, p.1))
      (2 * (dfsPost g root).length + 2)
      (((dfsPost g root).take ((dfsPost g root).length - 1)).reverse)
      (g.nodes.length + g.edges.length + 3) [(root, root)] = some m2 := hloop
  unfold immediate_dominators
  rw [if_pos hmem, List.dropLast_eq_take, hloop3]

/-- C7: the dominance analysis fails with the "unknown root" error exactly
when the requested root is not a node of the graph; and when the root is
a node the analysis succeeds — it raises no error — returning a mapping
in which nodes unreachable from the root have no entry. -/
theorem immediate_dominators_unknown_root_iff (g : DiGraph)
    (root u : List Char) (hnr : ¬ Reaches g root u) :
    (immediate_dominators g root = .error unknownRootErr ↔ root ∉ g.nodes)
      ∧ (root ∈ g.nodes →
          ∃ m, immediate_dominators g root = .ok m
            ∧ List.lookup u m = none) := by
  constructor
  · constructor
    · intro h hmem
      unfold immediate_dominators at h
      rw [if_pos hmem] at h
      split at h
      · exact absurd h (by simp)
      · rw [Except.error.injEq] at h
        exact absurd h (by simp [unknownRootErr])
    · intro h
      unfold immediate_dominators
      rw [if_neg h]
  · intro hmem
    obtain ⟨m, hok, hv, _⟩ := immediate_dominators_ok g root hmem
    refine ⟨m, hok, ?_⟩
    apply lookup_eq_none_of_not_mem
    intro hk
    exact hnr (dfsPost_sound g root u (hv.mem_N hk))

/-- Witness for `immediate_dominators_unknown_root_iff`: on the example
graph, the root check succeeds and a node absent from the graph (hence
unreachable) is absent from the successful result. -/
theorem immediate_dominators_unknown_root_iff_witness :
    (immediate_dominators exGraph "A".data = .error unknownRootErr
        ↔ "A".data ∉ exGraph.nodes)
      ∧ ("A".data ∈ exGraph.nodes →
          ∃ m, immediate_dominators exGraph "A".data = .ok m
            ∧ List.lookup "Z".data m = none) :=
  immediate_dominators_unknown_root_iff exGraph "A".data "Z".data
    (by
      intro h
      rcases h.eq_or_target with he | ht
      · exact absurd he (by decide)
      · exact absurd ht (by decide))

/-- Following the computed dominator pointers `k` times. -/
def idomIter (m : List (List Char × List Char)) :
    Nat → List Char → Option (List Char)
  | 0, u => some u
  | k + 1, u =>
      match List.lookup u m with
      | some w => idomIter m k w
      | none => none

/-- Under the invariant, every entry's dominator chain reaches the start
in a bounded number of steps (the postorder numbers strictly increase
along the chain). -/
lemma ValInv.chain {N : List (List Char)} {start : List Char}
    {m : List (List Char × List Char)} (hv : ValInv N start m)
    (hlast : idxOf N start = N.length - 1) :
    ∀ (d : Nat) (u : List Char), u ∈ m.map Prod.fst →
      N.length - 1 - idxOf N u ≤ d →
      ∃ k, k ≤ d ∧ idomIter m k u = some start := by
  intro d
  induction d with
  | zero =>
      intro u hu hd
      have huN : u ∈ N := hv.mem_N hu
      have hlt : idxOf N u < N.length := idxOf_lt_length huN
      have hs : u = start := by
        apply idxOf_inj huN (hv.mem_N ((lookup_isSome_iff_mem_keys m
          start).mp (by rw [hv.1]; rfl)))
        omega
      exact ⟨0, Nat.le_refl 0, by rw [hs]; rfl⟩
  | succ d ih =>
      intro u hu hd
      by_cases hus : u = start
      · exact ⟨0, by omega, by rw [hus]; rfl⟩
      · obtain ⟨w, hlu⟩ := Option.isSome_iff_exists.mp
          ((lookup_isSome_iff_mem_keys m u).mpr hu)
        obtain ⟨huN, hwN, hwk, hrank⟩ := hv.2 u w hlu
        have hrank2 : idxOf N u < idxOf N w := hrank hus
        have hwlt : idxOf N w < N.length := idxOf_lt_length hwN
        obtain ⟨k, hk, hit⟩ := ih w hwk (by omega)
        refine ⟨k + 1, by omega, ?_⟩
        simp only [idomIter, hlu]
        exact hit

/-- C2 (amended): when the root is a node, the computed
immediate-dominator mapping has domain exactly the nodes reachable from
the root — the root included, mapped to itself — and following dominator
pointers from any node of the domain terminates at the root in a bounded
number of steps; on the graph with edges A→B, A→C, B→D, C→D and root A
the mapping is exactly `{A:A, B:A, C:A, D:A}`. -/
theorem immediate_dominators_domain_tree (g : DiGraph) (root : List Char)
    (hmem : root ∈ g.nodes) :
    ∃ m, immediate_dominators g root = .ok m
      ∧ (∀ u, u ∈ m.map Prod.fst ↔ Reaches g root u)
      ∧ List.lookup root m = some root
      ∧ (∀ u ∈ m.map Prod.fst,
          ∃ k, k ≤ (dfsPost g root).length ∧ idomIter m k u = some root)
      ∧ immediate_dominators exGraph "A".data
        = .ok [("A".data, "A".data), ("C".data, "A".data),
            ("B".data, "A".data), ("D".data, "A".data)] := by
  obtain ⟨m, hok, hv, hk⟩ := immediate_dominators_ok g root hmem
  obtain ⟨M, hdecomp, hsM, hnd⟩ := dfsPost_decomp g root
  have hlast : idxOf (dfsPost g root) root
      = (dfsPost g root).length - 1 := by
    rw [hdecomp, idxOf_append_not_mem hsM]
    simp [idxOf]
  refine ⟨m, hok, ?_, hv.1, ?_, by decide⟩
  · intro u
    constructor
    · intro hu
      exact dfsPost_sound g root u (hv.mem_N hu)
    · intro hr
      exact hk u (dfsPost_complete g root u hr) (Nat.zero_le _)
  · intro u hu
    obtain ⟨k, hkle, hit⟩ := hv.chain hlast
      ((dfsPost g root).length - 1 - idxOf (dfsPost g root) u) u hu
      (Nat.le_refl _)
    exact ⟨k, by omega, hit⟩

/-- Witness for `immediate_dominators_domain_tree` on the spec's example
graph with root A. -/
theorem immediate_dominators_domain_tree_witness :
    ∃ m, immediate_dominators exGraph "A".data = .ok m
      ∧ (∀ u, u ∈ m.map Prod.fst ↔ Reaches exGraph "A".data u)
      ∧ List.lookup "A".data m = some "A".data
      ∧ (∀ u ∈ m.map Prod.fst,
          ∃ k, k ≤ (dfsPost exGraph "A".data).length
            ∧ idomIter m k u = some "A".data)
      ∧ immediate_dominators exGraph "A".data
        = .ok [("A".data, "A".data), ("C".data, "A".data),
            ("B".data, "A".data), ("D".data, "A".data)] :=
  immediate_dominators_domain_tree exGraph "A".data (by decide)

end SymbolGraph
